import Mathlib

/-!
Verification of the document-visualization system (classifier, visualization
orchestrator, table-extraction engine).

Texts are modelled as `List Char`.  JavaScript strings are embedded by `.data`
on Lean string literals.  `String.prototype.trim` is modelled over the ASCII
whitespace characters (space, tab, newline, carriage return, vertical tab,
form feed); none of the proved properties depend on the wider Unicode set.
The external generative-model calls are modelled as explicit oracle inputs
(`ModelOutcome`), and the DOM produced by the HTML parser (JSDOM / the
browser) is modelled as an element tree (`Node`), since HTML parsing itself
is an external library boundary.
-/

namespace FiatLux

/-- Whitespace predicate modelling the characters trimmed by JavaScript
string trim (restricted to the ASCII range). -/
def isSpaceJS (c : Char) : Bool :=
  c = ' ' || c = '\t' || c = '\n' || c = '\r' || c = (Char.ofNat 11) || c = (Char.ofNat 12)

/-- Drop leading JS whitespace. -/
def trimLeft (s : List Char) : List Char :=
  s.dropWhile isSpaceJS

/-- Drop trailing JS whitespace. -/
def trimRight (s : List Char) : List Char :=
  (s.reverse.dropWhile isSpaceJS).reverse

/-- Model of JavaScript string trim. -/
def trim (s : List Char) : List Char :=
  trimRight (trimLeft s)

/-- Boolean test that `d` is an initial segment of `s`. -/
def leadsWith : List Char → List Char → Bool
  | [], _ => true
  | _ :: _, [] => false
  | c :: cs, x :: xs => c = x && leadsWith cs xs

/-- Split `s` at the first occurrence of the token `d`, returning the part
before and the part after the token; `none` when `d` does not occur.  This
models `indexOf` followed by the two `substring` calls. -/
def splitFirst (d : List Char) : List Char → Option (List Char × List Char)
  | [] => if leadsWith d [] then some ([], ([] : List Char).drop d.length) else none
  | c :: rest =>
    if leadsWith d (c :: rest) then some ([], (c :: rest).drop d.length)
    else
      match splitFirst d rest with
      | some (b, a) => some (c :: b, a)
      | none => none

/-- Split a list on every occurrence of the character `d`; models the
JavaScript `split` with a one-character separator (always returns at least
one part). -/
def splitOnCh (d : Char) : List Char → List (List Char)
  | [] => [[]]
  | c :: rest =>
    match splitOnCh d rest with
    | [] => [[]]
    | p :: ps => if c = d then [] :: p :: ps else (c :: p) :: ps

/-- Join parts with a one-character separator; models the JavaScript
`join` with a one-character separator. -/
def joinSep (d : Char) : List (List Char) → List Char
  | [] => []
  | [x] => x
  | x :: y :: rest => x ++ d :: joinSep d (y :: rest)

/-- Case-insensitively strip the literal word `w` (stored lowercase) from the
front of `s`; `none` if `s` does not start with it. -/
def stripCi : List Char → List Char → Option (List Char)
  | [], s => some s
  | _ :: _, [] => none
  | c :: cs, x :: xs => if x.toLower = c then stripCi cs xs else none

/-- Model of the code-fence-opening replacement
`.replace(re-caret-backtick-backtick-backtick-word-optletter-optnewline, empty)`
with the case-insensitive flag: strips three backticks, the mandatory letters
`mand`, an optional letter `optc`, and an optional newline from the front,
when present; otherwise leaves the text unchanged. -/
def stripOpenFence (mand : List Char) (optc : Char) (s : List Char) : List Char :=
  match s with
  | '`' :: '`' :: '`' :: rest =>
    match stripCi mand rest with
    | some r1 =>
      let r2 := match r1 with
        | c :: t => if c.toLower = optc then t else r1
        | [] => r1
      match r2 with
      | '\n' :: t => t
      | _ => r2
    | none => s
  | _ => s

/-- Model of the code-fence-closing replacement: removes a trailing
triple backtick together with an optional newline right before it (the
leftmost, hence longest, match of the anchored pattern). -/
def stripCloseFence (s : List Char) : List Char :=
  match s.reverse with
  | '`' :: '`' :: '`' :: '\n' :: t => t.reverse
  | '`' :: '`' :: '`' :: t => t.reverse
  | _ => s

/-- The fixed delimiter token separating the conversational message from the
markup in a generation response. -/
def htmlMarker : List Char := "---HTML---".data

/-- Response parsing shared by the Refining and the NeedsContext branches of
the chat route: scan for the delimiter token; absent ⇒ question-only result
(no markup, whole text trimmed); present ⇒ message is the text before the
token trimmed, markup is the text after the token, trimmed, with surrounding
code fencing stripped, and trimmed again. -/
def parseModelResponse (s : List Char) : Option (List Char) × List Char :=
  match splitFirst htmlMarker s with
  | none => (none, trim s)
  | some (b, a) =>
    (some (trim (stripCloseFence (stripOpenFence ("htm").data 'l' (trim a)))), trim b)

/-- Tokens of the small pattern language needed for the fixed
`NEEDS_FULL_CONTEXT_PATTERNS` regular expressions: a case-insensitive
literal character, an optional character, and a one-or-more whitespace
gap (backslash-s-plus). -/
inductive Tok where
  | lit (c : Char)
  | opt (c : Char)
  | ws
deriving DecidableEq

/-- Backtracking matcher for a token pattern at the start of `s`.  The fuel
only bounds the recursion; `pattern length + text length + 1` is always
sufficient because every step shortens the pattern or the text. -/
def matchToks : Nat → List Tok → List Char → Bool
  | 0, _, _ => false
  | _ + 1, [], _ => true
  | f + 1, Tok.lit c :: ps, s =>
    match s with
    | [] => false
    | x :: xs => x.toLower = c && matchToks f ps xs
  | f + 1, Tok.opt c :: ps, s =>
    match s with
    | [] => matchToks f ps []
    | x :: xs => (x.toLower = c && matchToks f ps xs) || matchToks f ps (x :: xs)
  | f + 1, Tok.ws :: ps, s =>
    match s with
    | [] => false
    | x :: xs => isSpaceJS x && (matchToks f ps xs || matchToks f (Tok.ws :: ps) xs)

/-- Match a token pattern at the start of `s`, with sufficient fuel. -/
def matchHere (p : List Tok) (s : List Char) : Bool :=
  matchToks (p.length + s.length + 1) p s

/-- Unanchored match: the pattern matches at some position of `s`; models
the regular-expression `test` method. -/
def searchToks (p : List Tok) : List Char → Bool
  | [] => matchHere p []
  | c :: rest => matchHere p (c :: rest) || searchToks p rest

/-- Literal (case-insensitive) word as a token pattern. -/
def lits (s : String) : List Tok :=
  s.data.map Tok.lit

/-- The fixed list of "needs original data" patterns from the chat route,
with each top-level alternation `(x|y|z)` and each optional group
`(the-ws)?` distributed into separate whole patterns (which preserves
existence of a match, the only thing `test` observes).  The eleven source
regular expressions expand to the following patterns, in source order. -/
def NEEDS_FULL_CONTEXT_PATTERNS : List (List Tok) :=
  [ lits ("re") ++ [Tok.opt '-'] ++ lits ("read")
  , lits ("original") ++ [Tok.ws] ++ lits ("data")
  , lits ("original") ++ [Tok.ws] ++ lits ("document")
  , lits ("original") ++ [Tok.ws] ++ lits ("file")
  , lits ("all") ++ [Tok.ws] ++ lits ("data")
  , lits ("all") ++ [Tok.ws] ++ lits ("items")
  , lits ("all") ++ [Tok.ws] ++ lits ("courses")
  , lits ("all") ++ [Tok.ws] ++ lits ("entries")
  , lits ("all") ++ [Tok.ws] ++ lits ("the") ++ [Tok.ws] ++ lits ("data")
  , lits ("all") ++ [Tok.ws] ++ lits ("the") ++ [Tok.ws] ++ lits ("items")
  , lits ("all") ++ [Tok.ws] ++ lits ("the") ++ [Tok.ws] ++ lits ("courses")
  , lits ("all") ++ [Tok.ws] ++ lits ("the") ++ [Tok.ws] ++ lits ("entries")
  , lits ("missing") ++ [Tok.ws] ++ lits ("data")
  , lits ("missing") ++ [Tok.ws] ++ lits ("items")
  , lits ("missing") ++ [Tok.ws] ++ lits ("courses")
  , lits ("missing") ++ [Tok.ws] ++ lits ("entries")
  , lits ("from") ++ [Tok.ws] ++ lits ("source")
  , lits ("from") ++ [Tok.ws] ++ lits ("document")
  , lits ("from") ++ [Tok.ws] ++ lits ("file")
  , lits ("from") ++ [Tok.ws] ++ lits ("the") ++ [Tok.ws] ++ lits ("source")
  , lits ("from") ++ [Tok.ws] ++ lits ("the") ++ [Tok.ws] ++ lits ("document")
  , lits ("from") ++ [Tok.ws] ++ lits ("the") ++ [Tok.ws] ++ lits ("file")
  , lits ("don") ++ [Tok.opt (Char.ofNat 39)] ++ lits ("t") ++ [Tok.ws] ++ lits ("see")
  , lits ("where") ++ [Tok.ws] ++ lits ("is")
  , lits ("where") ++ [Tok.ws] ++ lits ("are")
  , lits ("repopulate")
  , lits ("reload")
  , lits ("start") ++ [Tok.ws] ++ lits ("over")
  , lits ("regenerate")
  ]

/-- The chat route's test whether the user instruction needs the original
document data (`NEEDS_FULL_CONTEXT_PATTERNS.some(p => p.test(message))`). -/
def needsFullContext (message : List Char) : Bool :=
  NEEDS_FULL_CONTEXT_PATTERNS.any (fun p => searchToks p message)

inductive Role where
  | user
  | assistant
deriving DecidableEq

/-- One transcript turn. -/
structure ChatMsg where
  role : Role
  content : List Char
deriving DecidableEq

/-- The two per-turn orchestrator modes. -/
inductive Mode where
  | Refining
  | NeedsContext
deriving DecidableEq

/-- Mode selection of the chat route:
`isRefinement = currentVisualization && history && history.length > 0 && !needsFullContext`,
with the Refining branch skipping the document-context assembly entirely.
JavaScript truthiness of the strings and the array is the emptiness test. -/
def selectMode (currentVisualization : List Char) (history : List ChatMsg)
    (message : List Char) : Mode :=
  if !currentVisualization.isEmpty && !history.isEmpty && !(needsFullContext message)
  then Mode.Refining else Mode.NeedsContext

/-- Outcome of the chat fetch as seen by the client component: a parsed
response body, an abort of the in-flight call, or any other failure. -/
inductive FetchOutcome where
  | ok (visualization : Option (List Char)) (message : List Char)
  | abortError
  | otherError

/-- The cancellation-notice transcript entry text. -/
def cancelNotice : List Char :=
  "Cancelled. What would you like to do instead?".data

/-- The failure-notice transcript entry text. -/
def failureNotice : List Char :=
  "Sorry, I had trouble updating the visualization. Please try again.".data

/-- The default assistant entry used when the response carries no message. -/
def defaultAssistantNotice : List Char :=
  "Updated the visualization.".data

/-- Result of one client chat turn: the new in-memory transcript, the new
in-memory markup, and the list of persistence calls issued during the turn
(each `saveState` call carries markup and transcript together). -/
structure TurnResult where
  messages : List ChatMsg
  currentViz : List Char
  writes : List (List Char × List ChatMsg)
deriving DecidableEq

/-- The client turn handler `sendMessageWithContent` of the chat sidebar.
The `isLoading` re-entrancy guard is not modelled: while a call is in
flight no further turn starts, so every modelled turn begins idle. -/
def sendMessageWithContent (messages : List ChatMsg) (currentVisualization : List Char)
    (userMessage : List Char) (outcome : FetchOutcome) : TurnResult :=
  if (trim userMessage).isEmpty then ⟨messages, currentVisualization, []⟩
  else
    let newMessages := messages ++ [⟨Role.user, userMessage⟩]
    match outcome with
    | FetchOutcome.ok viz msg =>
      let updated := newMessages ++
        [⟨Role.assistant, if msg.isEmpty then defaultAssistantNotice else msg⟩]
      match viz with
      | some v =>
        if !v.isEmpty then ⟨updated, v, [(v, updated)]⟩
        else ⟨updated, currentVisualization, [(currentVisualization, updated)]⟩
      | none => ⟨updated, currentVisualization, [(currentVisualization, updated)]⟩
    | FetchOutcome.abortError =>
      ⟨newMessages ++ [⟨Role.assistant, cancelNotice⟩], currentVisualization, []⟩
    | FetchOutcome.otherError =>
      ⟨newMessages ++ [⟨Role.assistant, failureNotice⟩], currentVisualization, []⟩

/-- The per-document persisted record fields written by the state route. -/
structure StoredState where
  visualization : List Char
  chatHistory : List ChatMsg
deriving DecidableEq

/-- Apply the persistence calls of a turn to the stored record; each
`saveState` call overwrites both fields. -/
def applyWrites (p : StoredState) (ws : List (List Char × List ChatMsg)) : StoredState :=
  ws.foldl (fun _ w => ⟨w.1, w.2⟩) p

/-- Runtime JSON values, as produced by the JavaScript JSON parser.
Numbers keep their source lexeme (their numeric value is never consumed by
the code under verification, only their truthiness). -/
inductive Json where
  | null
  | bool (b : Bool)
  | num (lex : List Char)
  | str (s : List Char)
  | arr (elems : List Json)
  | obj (fields : List (List Char × Json))

/-- Hexadecimal digit value. -/
def hexVal (c : Char) : Option Nat :=
  if c.isDigit then some (c.toNat - 48)
  else if 97 ≤ c.toNat && c.toNat ≤ 102 then some (c.toNat - 87)
  else if 65 ≤ c.toNat && c.toNat ≤ 70 then some (c.toNat - 55)
  else none

/-- JSON string escape characters. -/
def escChar (e : Char) : Option Char :=
  if e = '"' then some '"'
  else if e = '\\' then some '\\'
  else if e = '/' then some '/'
  else if e = 'b' then some (Char.ofNat 8)
  else if e = 'f' then some (Char.ofNat 12)
  else if e = 'n' then some '\n'
  else if e = 'r' then some '\r'
  else if e = 't' then some '\t'
  else none

/-- Parse the body of a JSON string (after the opening quote) up to the
closing quote, decoding escapes and rejecting raw control characters. -/
def parseStringBody : List Char → Option (List Char × List Char)
  | [] => none
  | c :: rest =>
    if c = '"' then some ([], rest)
    else if c = '\\' then
      match rest with
      | [] => none
      | e :: r2 =>
        if e = 'u' then
          match r2 with
          | h1 :: h2 :: h3 :: h4 :: r3 =>
            match hexVal h1, hexVal h2, hexVal h3, hexVal h4 with
            | some a, some b, some c3, some d4 =>
              match parseStringBody r3 with
              | some (cs, rest2) =>
                some (Char.ofNat (((a * 16 + b) * 16 + c3) * 16 + d4) :: cs, rest2)
              | none => none
            | _, _, _, _ => none
          | _ => none
        else
          match escChar e with
          | some ec =>
            match parseStringBody r2 with
            | some (cs, rest2) => some (ec :: cs, rest2)
            | none => none
          | none => none
    else if c.toNat < 32 then none
    else
      match parseStringBody rest with
      | some (cs, rest2) => some (c :: cs, rest2)
      | none => none

/-- Parse a JSON number lexeme at the start of `s`. -/
def parseNumLex (s : List Char) : Option (List Char × List Char) :=
  let p := match s with
    | '-' :: t => ((['-'] : List Char), t)
    | _ => (([] : List Char), s)
  match p.2 with
  | [] => none
  | c :: _ =>
    if !c.isDigit then none
    else
      let q := if c = '0' then ((['0'] : List Char), p.2.drop 1)
               else (p.2.takeWhile Char.isDigit, p.2.dropWhile Char.isDigit)
      let fq := match q.2 with
        | '.' :: t =>
          let ds := t.takeWhile Char.isDigit
          if ds.isEmpty then (([] : List Char), q.2)
          else ('.' :: ds, t.dropWhile Char.isDigit)
        | _ => (([] : List Char), q.2)
      let eq2 := match fq.2 with
        | e :: t =>
          if e = 'e' || e = 'E' then
            let sp := match t with
              | '+' :: u => ((['+'] : List Char), u)
              | '-' :: u => ((['-'] : List Char), u)
              | _ => (([] : List Char), t)
            let ds := sp.2.takeWhile Char.isDigit
            if ds.isEmpty then (([] : List Char), fq.2)
            else (e :: sp.1 ++ ds, sp.2.dropWhile Char.isDigit)
          else (([] : List Char), fq.2)
        | [] => (([] : List Char), fq.2)
      some (p.1 ++ q.1 ++ fq.1 ++ eq2.1, eq2.2)

/-- JSON whitespace. -/
def jsonWs (c : Char) : Bool :=
  c = ' ' || c = '\t' || c = '\n' || c = '\r'

/-- Skip JSON whitespace. -/
def skipWs (s : List Char) : List Char :=
  s.dropWhile jsonWs

/-- Parser mode: a value, the element loop of an array, or the member loop
of an object (with the members accumulated so far). -/
inductive PMode where
  | val
  | arrLoop (acc : List Json)
  | objLoop (acc : List (List Char × Json))

/-- Recursive-descent JSON parser with explicit fuel (structural recursion
so that concrete inputs evaluate); twice the input length plus a constant is
always enough fuel, since every fuel step consumes input or switches from a
loop mode into value mode after consuming a bracket. -/
def parseJ : Nat → PMode → List Char → Option (Json × List Char)
  | 0, _, _ => none
  | f + 1, PMode.val, s0 =>
    let s := skipWs s0
    if leadsWith ("null").data s then some (Json.null, s.drop 4)
    else if leadsWith ("true").data s then some (Json.bool true, s.drop 4)
    else if leadsWith ("false").data s then some (Json.bool false, s.drop 5)
    else
      match s with
      | [] => none
      | c :: r =>
        if c = '"' then
          match parseStringBody r with
          | some (cs, rest) => some (Json.str cs, rest)
          | none => none
        else if c = '[' then
          match skipWs r with
          | ']' :: r2 => some (Json.arr [], r2)
          | r2 => parseJ f (PMode.arrLoop []) r2
        else if c = Char.ofNat 123 then
          match skipWs r with
          | [] => none
          | c2 :: r2 =>
            if c2 = Char.ofNat 125 then some (Json.obj [], r2)
            else parseJ f (PMode.objLoop []) (c2 :: r2)
        else (parseNumLex s).map (fun pr => (Json.num pr.1, pr.2))
  | f + 1, PMode.arrLoop acc, s =>
    match parseJ f PMode.val s with
    | none => none
    | some (v, rest) =>
      match skipWs rest with
      | ',' :: r2 => parseJ f (PMode.arrLoop (acc ++ [v])) r2
      | ']' :: r2 => some (Json.arr (acc ++ [v]), r2)
      | _ => none
  | f + 1, PMode.objLoop acc, s =>
    match skipWs s with
    | [] => none
    | c :: r =>
      if c = '"' then
        match parseStringBody r with
        | none => none
        | some (key, r1) =>
          match skipWs r1 with
          | ':' :: r2 =>
            match parseJ f PMode.val r2 with
            | none => none
            | some (v, rest) =>
              match skipWs rest with
              | ',' :: r3 => parseJ f (PMode.objLoop (acc ++ [(key, v)])) r3
              | c4 :: r4 =>
                if c4 = Char.ofNat 125 then some (Json.obj (acc ++ [(key, v)]), r4)
                else none
              | [] => none
          | _ => none
      else none

/-- Model of the JavaScript JSON parse of a whole text: parse one value and
require only whitespace after it. -/
def jsonParse (s : List Char) : Option Json :=
  match parseJ (2 * s.length + 8) PMode.val s with
  | some (v, rest) => if (skipWs rest).isEmpty then some v else none
  | none => none

/-- Model of the greedy bracket-extraction regular expressions used on model
output: the segment from the first `po` to the last `pc` after it, when both
exist. -/
def extractDelim (po pc : Char) (s : List Char) : Option (List Char) :=
  let rest := s.dropWhile (fun c => c ≠ po)
  match rest with
  | [] => none
  | _ :: _ =>
    let r := rest.reverse.dropWhile (fun c => c ≠ pc)
    match r with
    | [] => none
    | _ :: _ => some r.reverse

/-- First opening brace to last closing brace (the classifier's object
match). -/
def extractBraces (s : List Char) : Option (List Char) :=
  extractDelim (Char.ofNat 123) (Char.ofNat 125) s

/-- First opening bracket to last closing bracket (the identify fallback's
array match). -/
def extractBrackets (s : List Char) : Option (List Char) :=
  extractDelim '[' ']' s

/-- JavaScript truthiness of a JSON value. -/
def Json.truthy : Json → Bool
  | Json.null => false
  | Json.bool b => b
  | Json.str s => !s.isEmpty
  | Json.num lex =>
    !(((lex.takeWhile (fun c => c ≠ 'e' && c ≠ 'E')).filter Char.isDigit).all
      (fun c => c = '0'))
  | Json.arr _ => true
  | Json.obj _ => true

/-- Property lookup on a parsed object: last duplicate key wins, as in the
JavaScript object built by the JSON parser. -/
def lookupField (fs : List (List Char × Json)) (k : List Char) : Option Json :=
  fs.foldl (fun acc f => if f.1 = k then some f.2 else acc) none

/-- Property access `value.k` (absent on non-objects). -/
def Json.getField : Json → List Char → Option Json
  | Json.obj fs, k => lookupField fs k
  | _, _ => none

/-- View a JSON value as a string. -/
def Json.asString : Json → Option (List Char)
  | Json.str s => some s
  | _ => none

/-- Model of `x || d` for a possibly-absent JSON value. -/
def jtruthyOr (o : Option Json) (dflt : Json) : Json :=
  match o with
  | some v => if v.truthy then v else dflt
  | none => dflt

/-- The first content block of a model response: either a text block or
something else. -/
inductive ModelContent where
  | text (s : List Char)
  | nonText

/-- Classification result record.  The field types mirror the runtime: the
values come from an unvalidated parsed object, so any JSON value can occur
in them regardless of the declared TypeScript union type. -/
structure ExtractionResult where
  text : Json
  structured : Option Json
  fileType : Json

/-- The classifier's response parsing: find the first-to-last-brace
segment, parse it as JSON, and read the three fields with their fallbacks;
on a missing or unparseable object degrade to the raw text with category
"unknown" and no structured payload (the JSON parse failure is caught). -/
def parseExtractionResponse (m : ModelContent) : ExtractionResult :=
  match m with
  | ModelContent.nonText => ⟨Json.str [], none, Json.str ("unknown").data⟩
  | ModelContent.text raw =>
    match extractBraces raw with
    | some mt =>
      match jsonParse mt with
      | some parsed =>
        ⟨jtruthyOr (parsed.getField ("extractedText").data) (Json.str raw),
         parsed.getField ("structured").data,
         jtruthyOr (parsed.getField ("fileType").data) (Json.str ("unknown").data)⟩
      | none => ⟨Json.str raw, none, Json.str ("unknown").data⟩
    | none => ⟨Json.str raw, none, Json.str ("unknown").data⟩

/-- The closed category set of the classifier contract. -/
def allowedCategories : List (List Char) :=
  [("schedule").data, ("invoice").data, ("healthcare").data, ("unknown").data]

mutual
/-- Element tree of the parsed markup (the DOM produced by the external
HTML parser): a text node, or an element with a tag name, a class list and
children. -/
inductive Node where
  | text (s : List Char) : Node
  | elem (tag : List Char) (classes : List (List Char)) (children : NodeList) : Node
/-- Children of an element, as a mutual inductive so that all tree
functions are structural (and therefore evaluate on concrete documents). -/
inductive NodeList where
  | nil : NodeList
  | cons (n : Node) (ns : NodeList) : NodeList
end

/-- Build a `NodeList` from a list. -/
def nodes : List Node → NodeList
  | [] => NodeList.nil
  | n :: ns => NodeList.cons n (nodes ns)

mutual
/-- All descendants of a node satisfying `p`, in document (pre)order;
models `querySelectorAll` for the simple selectors the code uses. -/
def qsaN (p : Node → Bool) : Node → List Node
  | Node.text _ => []
  | Node.elem _ _ ch => qsaL p ch
/-- `qsaN` over a child list. -/
def qsaL (p : Node → Bool) : NodeList → List Node
  | NodeList.nil => []
  | NodeList.cons n ns => (if p n then [n] else []) ++ qsaN p n ++ qsaL p ns
end

mutual
/-- The concatenated text content of a subtree (`textContent`). -/
def textContentN : Node → List Char
  | Node.text s => s
  | Node.elem _ _ ch => textContentL ch
/-- `textContentN` over a child list. -/
def textContentL : NodeList → List Char
  | NodeList.nil => []
  | NodeList.cons n ns => textContentN n ++ textContentL ns
end

/-- Tag-name selector. -/
def matchesTag (t : List Char) : Node → Bool
  | Node.text _ => false
  | Node.elem tag _ _ => tag = t

/-- Class selector / `classList.contains`. -/
def hasClass (c : List Char) : Node → Bool
  | Node.text _ => false
  | Node.elem _ cls _ => cls.contains c

/-- The `th, td` selector. -/
def isCellTag (n : Node) : Bool :=
  matchesTag ("th").data n || matchesTag ("td").data n

/-- Character class `[\d,]` of the currency regular expressions. -/
def isDigitOrComma (c : Char) : Bool :=
  c.isDigit || c = ','

/-- Match the tail `([\d,]+)\.(\d\{2\})` of the currency patterns at the
start of `s`: the maximal digit-or-comma run, a dot and two digits; returns
the run, the two digits, and the rest.  (No backtracking is needed: the
run is maximal and a dot is not in the character class.) -/
def numTailMatch (s : List Char) : Option (List Char × Char × Char × List Char) :=
  let run := s.takeWhile isDigitOrComma
  let rest := s.dropWhile isDigitOrComma
  if run.isEmpty then none
  else
    match rest with
    | '.' :: d1 :: d2 :: r =>
      if d1.isDigit && d2.isDigit then some (run, d1, d2, r) else none
    | _ => none

/-- The replacement text of the currency normalizations: a dollar sign, the
run with its commas removed, the dot and the two digits. -/
def moneyRepl (run : List Char) (d1 d2 : Char) : List Char :=
  '$' :: (run.filter (fun c => c ≠ ',')) ++ ('.' :: d1 :: d2 :: [])

/-- Match of the table-cell currency pattern (optional dollar sign) at the
start of `s`; on success returns the replacement and the rest after the
match. -/
def moneyAtTable (s : List Char) : Option (List Char × List Char) :=
  match s with
  | [] => none
  | c :: t =>
    if c = '$' then
      match numTailMatch t with
      | some (run, d1, d2, r) => some (moneyRepl run d1 d2, r)
      | none => none
    else
      match numTailMatch (c :: t) with
      | some (run, d1, d2, r) => some (moneyRepl run d1 d2, r)
      | none => none

/-- Replace-first of the table-cell currency pattern (leftmost match). -/
def replaceMoneyTable : List Char → List Char
  | [] => []
  | c :: rest =>
    match moneyAtTable (c :: rest) with
    | some (repl, after) => repl ++ after
    | none => c :: replaceMoneyTable rest

/-- Match of the item-cell currency pattern (mandatory dollar sign). -/
def moneyAtDollar (s : List Char) : Option (List Char × List Char) :=
  match s with
  | [] => none
  | c :: t =>
    if c = '$' then
      match numTailMatch t with
      | some (run, d1, d2, r) => some (moneyRepl run d1 d2, r)
      | none => none
    else none

/-- Replace-first of the item-cell currency pattern. -/
def replaceMoneyDollar : List Char → List Char
  | [] => []
  | c :: rest =>
    match moneyAtDollar (c :: rest) with
    | some (repl, after) => repl ++ after
    | none => c :: replaceMoneyDollar rest

/-- Match of the negative item-cell currency pattern (minus, mandatory
dollar sign). -/
def moneyAtNegDollar (s : List Char) : Option (List Char × List Char) :=
  match s with
  | c1 :: c2 :: t =>
    if c1 = '-' then
      if c2 = '$' then
        match numTailMatch t with
        | some (run, d1, d2, r) => some ('-' :: moneyRepl run d1 d2, r)
        | none => none
      else none
    else none
  | _ => none

/-- Replace-first of the negative item-cell currency pattern. -/
def replaceMoneyNeg : List Char → List Char
  | [] => []
  | c :: rest =>
    match moneyAtNegDollar (c :: rest) with
    | some (repl, after) => repl ++ after
    | none => c :: replaceMoneyNeg rest

/-- The item-cell normalization: the positive replacement followed by the
negative one, exactly as the two sequential `replace` calls. -/
def normalizeItemCell (s : List Char) : List Char :=
  replaceMoneyNeg (replaceMoneyDollar s)

/-- Double the quotes of a field body. -/
def escQuotes : List Char → List Char
  | [] => []
  | c :: r => if c = '"' then '"' :: '"' :: escQuotes r else c :: escQuotes r

/-- Quote a field when it contains a separator or a quote character. -/
def quoteCsv (s : List Char) : List Char :=
  if s.contains ',' || s.contains '"' then '"' :: escQuotes s ++ ['"'] else s

/-- Decimal digit character. -/
def digitChar (d : Nat) : Char :=
  Char.ofNat (48 + d)

/-- Fuelled accumulator loop producing the decimal digits of `n` in front
of `acc`; any fuel above the digit count gives the same result. -/
def natDigitsF : Nat → Nat → List Char → List Char
  | 0, _, acc => acc
  | f + 1, n, acc => if n = 0 then acc else natDigitsF f (n / 10) (digitChar (n % 10) :: acc)

/-- The digit list of `n` with canonical fuel (empty for zero). -/
def natDigits (n : Nat) : List Char :=
  natDigitsF (n + 1) n []

/-- Decimal rendering of a natural number (the template-string index in the
candidate ids and names). -/
def natStr (n : Nat) : List Char :=
  if n = 0 then [('0' : Char)] else natDigits n

/-- A structurally extracted table: id, display name and the cached
delimited payload. -/
structure DirectTable where
  id : List Char
  name : List Char
  csvData : List Char
deriving DecidableEq

/-- Trimmed text content of a cell. -/
def cellRaw (n : Node) : List Char :=
  trim (textContentN n)

/-- A table cell as emitted: trimmed, currency-normalized, quoted. -/
def encTableCell (n : Node) : List Char :=
  quoteCsv (replaceMoneyTable (cellRaw n))

/-- The raw (trimmed, pre-normalization) cell texts of a table, row by
row (`tr` descendants, then `th`/`td` descendants of each row). -/
def tableRowsRaw (t : Node) : List (List (List Char)) :=
  (qsaN (matchesTag ("tr").data) t).map (fun tr => (qsaN isCellTag tr).map cellRaw)

/-- The emitted rows of a table: encoded cells, with cell-less rows
dropped. -/
def tableRowsEnc (t : Node) : List (List (List Char)) :=
  ((qsaN (matchesTag ("tr").data) t).map
    (fun tr => (qsaN isCellTag tr).map encTableCell)).filter (fun r => !r.isEmpty)

/-- The candidate id of the table at document index `idx`. -/
def tableIdStr (idx : Nat) : List Char :=
  ("table_").data ++ natStr (idx + 1)

/-- The candidate display name of the table at document index `idx`. -/
def tableNameStr (idx : Nat) : List Char :=
  ("Table ").data ++ natStr (idx + 1)

/-- The cached delimited payload of a table: encoded rows joined by commas,
rows joined by newlines. -/
def tableCsv (t : Node) : List Char :=
  joinSep '\n' ((tableRowsEnc t).map (joinSep ','))

/-- Candidate for the table at document index `idx`, kept only when it has
more than one row. -/
def mkTableCand (idx : Nat) (t : Node) : Option DirectTable :=
  let rows := tableRowsEnc t
  if rows.length > 1 then some ⟨tableIdStr idx, tableNameStr idx, tableCsv t⟩
  else none

/-- Candidates of the literal tables, enumerated with their document
indices. -/
def tableCandsAux (idx : Nat) : List Node → List DirectTable
  | [] => []
  | t :: ts =>
    match mkTableCand idx t with
    | some c => c :: tableCandsAux (idx + 1) ts
    | none => tableCandsAux (idx + 1) ts

/-- The fixed candidate sub-field class names of the item structures. -/
def itemSelectors : List (List Char) :=
  [("item-name").data, ("item-code").data, ("quantity").data, ("category").data,
   ("original-price").data, ("discount").data, ("final-price").data]

/-- Capitalize the first character of a word. -/
def capFirst : List Char → List Char
  | [] => []
  | c :: r => c.toUpper :: r

/-- Header label of a selector: split on dashes, capitalize, join with
spaces. -/
def headerize (sel : List Char) : List Char :=
  joinSep ' ' ((splitOnCh '-' sel).map capFirst)

/-- The selectors present in at least one item, in fixed selector order. -/
def foundSelectorsOf (items : List Node) : List (List Char) :=
  itemSelectors.filter (fun sel => items.any (fun it => !(qsaN (hasClass sel) it).isEmpty))

/-- One emitted item row: for the marker column the Yes/empty flag, for the
other columns the first matching descendant's text, normalized and
quoted (empty when absent). -/
def itemRow (foundSels : List (List Char)) (it : Node) : List (List Char) :=
  foundSels.map (fun sel =>
    if sel = ("special-order").data then
      (if hasClass ("special-order").data it then ("Yes").data else [])
    else
      match (qsaN (hasClass sel) it).head? with
      | some el => quoteCsv (normalizeItemCell (trim (textContentN el)))
      | none => quoteCsv (normalizeItemCell []))

/-- The homogeneous repeated-item candidate: union of sub-fields across all
items (at least two columns required), with a marker flag column appended
when any item carries the marker class. -/
def lineItemsCands (root : Node) : List DirectTable :=
  let items := qsaN (hasClass ("item").data) root
  if items.isEmpty then []
  else
    let found0 := foundSelectorsOf items
    let hasSpecial := items.any (fun it => hasClass ("special-order").data it)
    let found := if hasSpecial then found0 ++ [("special-order").data] else found0
    let headers := (found0.map headerize) ++
      (if hasSpecial then [("Special Order").data] else [])
    if headers.length ≥ 2 then
      let rows := headers :: items.map (itemRow found)
      if rows.length > 1 then
        [⟨("line_items").data, ("Line Items").data, joinSep '\n' (rows.map (joinSep ','))⟩]
      else []
    else []

/-- The structural extraction pass over the whole document: literal tables
first, then the repeated-item candidate; `none` when nothing was found.
(The surrounding try/catch only guards the external HTML parser, which is
outside this model.) -/
def tryDirectExtraction (root : Node) : Option (List DirectTable) :=
  let tables := tableCandsAux 0 (qsaN (matchesTag ("table").data) root) ++ lineItemsCands root
  if tables.isEmpty then none else some tables

/-- A candidate as returned by the identify action of the export route. -/
structure CandOut where
  id : List Char
  name : List Char
  description : List Char
  rowCount : Nat
  csvData : List Char
deriving DecidableEq

/-- Identify-action view of a structural candidate: the description is
fixed and the row count is the line count of the cached payload minus
one. -/
def toCandOut (t : DirectTable) : CandOut :=
  ⟨t.id, t.name, ("Extracted directly from HTML structure").data,
   (splitOnCh '\n' t.csvData).length - 1, t.csvData⟩

/-- Outcome of one generative-model call as seen by the export route: a
text block, a non-text first block, or a thrown error. -/
inductive ModelOutcome where
  | ok (text : List Char)
  | nonText
  | threw

/-- The identify fallback's parse of the model text: the first-to-last
bracket segment if present, otherwise the trimmed text with code fencing
stripped; then the JSON parse. -/
def identifyParse (t : List Char) : Option Json :=
  match extractBrackets t with
  | some m => jsonParse m
  | none => jsonParse (stripCloseFence (stripOpenFence ("jso").data 'n' (trim t)))

/-- Response of the identify action: structural candidates, the parsed
model table list passed through as-is, the parse-failure degradation (an
empty list with a parse-error note), or an error status (non-text content
or a thrown call caught by the outer handler). -/
inductive IdentifyResp where
  | direct (tables : List CandOut)
  | modelTables (tables : Json)
  | parseFailed
  | httpError (status : Nat)

/-- The identify action of the export route. -/
def identifyRoute (root : Node) (m : ModelOutcome) : IdentifyResp :=
  match tryDirectExtraction root with
  | some ts => IdentifyResp.direct (ts.map toCandOut)
  | none =>
    match m with
    | ModelOutcome.threw => IdentifyResp.httpError 500
    | ModelOutcome.nonText => IdentifyResp.httpError 500
    | ModelOutcome.ok t =>
      match identifyParse t with
      | some j => IdentifyResp.modelTables j
      | none => IdentifyResp.parseFailed

/-- JSON serialization of a structural candidate (the response body). -/
def candToJson (c : CandOut) : Json :=
  Json.obj [(("id").data, Json.str c.id), (("name").data, Json.str c.name),
            (("description").data, Json.str c.description),
            (("rowCount").data, Json.num (natStr c.rowCount)),
            (("_csvData").data, Json.str c.csvData)]

/-- The candidate list shown by the viewer component after an identify
request: `data.tables || []` on success, `[]` on a non-OK response or on
the parse-failure degradation — never an error dialog. -/
def uiIdentifyTables (r : IdentifyResp) : Json :=
  match r with
  | IdentifyResp.direct ts => Json.arr (ts.map candToJson)
  | IdentifyResp.modelTables j => if j.truthy then j else Json.arr []
  | IdentifyResp.parseFailed => Json.arr []
  | IdentifyResp.httpError _ => Json.arr []

/-- Response of the extract action: a delimited payload or an error
status. -/
inductive ExtractResp where
  | okCsv (csv : List Char)
  | httpError (status : Nat)

/-- The extract action of the export route: missing identifiers are
rejected; a re-run of the structural pass is searched for a candidate with
the given id or name and its cached payload returned; otherwise the model
fallback output is fence-stripped and returned (best effort), and a failed
call becomes an error status via the outer handler. -/
def extractRoute (root : Node) (tableId tableName : List Char) (m : ModelOutcome) :
    ExtractResp :=
  if tableId.isEmpty && tableName.isEmpty then ExtractResp.httpError 400
  else
    match (tryDirectExtraction root).bind
        (fun ts => ts.find? (fun t => t.id == tableId || t.name == tableName)) with
    | some t => ExtractResp.okCsv t.csvData
    | none =>
      match m with
      | ModelOutcome.threw => ExtractResp.httpError 500
      | ModelOutcome.nonText => ExtractResp.httpError 500
      | ModelOutcome.ok t =>
        ExtractResp.okCsv (stripCloseFence (stripOpenFence ("cs").data 'v' (trim t)))

/-- The payload the viewer component downloads after an extract request:
nothing on a non-OK response or an empty payload (`if (data.csvData)`),
and never an error dialog for a failed call. -/
def uiExtractCsv (r : ExtractResp) : Option (List Char) :=
  match r with
  | ExtractResp.okCsv c => if c.isEmpty then none else some c
  | ExtractResp.httpError _ => none

/-- Scan of one delimited line: counts the separators outside quoted
regions (a doubled quote toggles twice) and returns the final in-quote
state. -/
def scanQ : List Char → Bool → Nat × Bool
  | [], q => (0, q)
  | c :: rest, q =>
    if c = '"' then scanQ rest (!q)
    else if c = ',' then
      if q then scanQ rest q
      else
        let p := scanQ rest q
        (p.1 + 1, p.2)
    else scanQ rest q

/-- Number of comma-separated fields of one line, where a quoted field
containing embedded separators counts as one field. -/
def countFields (line : List Char) : Nat :=
  (scanQ line false).1 + 1

/-- The id fields of a JSON candidate array (the observable the
determinism property compares between runs). -/
def candidateIds (j : Json) : List (Option (List Char)) :=
  match j with
  | Json.arr es => es.map (fun e => (e.getField ("id").data).bind Json.asString)
  | _ => []

/-- A markup document with no tables and no item structures. -/
def emptyDocEx : Node :=
  Node.elem ("body").data [] NodeList.nil

/-- The literal table of the specification scenario. -/
def tableTblEx : Node :=
  Node.elem ("table").data [] (nodes [
    Node.elem ("tr").data [] (nodes [
      Node.elem ("th").data [] (nodes [Node.text ("Item").data]),
      Node.elem ("th").data [] (nodes [Node.text ("Price").data])]),
    Node.elem ("tr").data [] (nodes [
      Node.elem ("td").data [] (nodes [Node.text ("Widget").data]),
      Node.elem ("td").data [] (nodes [Node.text ("$1,250.00").data])])])

/-- A markup document containing exactly the specification scenario
table. -/
def tableDocEx : Node :=
  Node.elem ("body").data [] (nodes [tableTblEx])

/-- A one-column table whose single data cell contains an embedded
newline. -/
def nlTableEx : Node :=
  Node.elem ("table").data [] (nodes [
    Node.elem ("tr").data [] (nodes [
      Node.elem ("th").data [] (nodes [Node.text ("X").data])]),
    Node.elem ("tr").data [] (nodes [
      Node.elem ("td").data [] (nodes [Node.text ("a\nb").data])])])

/-- A markup document containing only the newline-cell table. -/
def nlTableDocEx : Node :=
  Node.elem ("body").data [] (nodes [nlTableEx])

/-- A markup document with one item element whose price sub-field carries a
comma-thousands number without a dollar sign. -/
def itemDocEx : Node :=
  Node.elem ("body").data [] (nodes [
    Node.elem ("div").data [("item").data] (nodes [
      Node.elem ("span").data [("item-name").data] (nodes [Node.text ("Widget").data]),
      Node.elem ("span").data [("final-price").data] (nodes [Node.text ("1,250.00").data])])])

theorem leadsWith_iff (d s : List Char) : leadsWith d s = true ↔ ∃ t, s = d ++ t := by
  induction d generalizing s with
  | nil => simp [leadsWith]
  | cons c cs ih =>
    cases s with
    | nil => simp [leadsWith]
    | cons x xs =>
      simp only [leadsWith, Bool.and_eq_true, decide_eq_true_eq, ih]
      constructor
      · rintro ⟨rfl, t, rfl⟩; exact ⟨t, rfl⟩
      · rintro ⟨t, ht⟩
        injection ht with h1 h2
        exact ⟨h1.symm, t, h2⟩

theorem splitFirst_cons_pos (d : List Char) (c : Char) (rest : List Char)
    (h : leadsWith d (c :: rest) = true) :
    splitFirst d (c :: rest) = some ([], (c :: rest).drop d.length) := by
  simp [splitFirst, h]

theorem splitFirst_cons_neg (d : List Char) (c : Char) (rest : List Char)
    (h : leadsWith d (c :: rest) = false) :
    splitFirst d (c :: rest) =
      match splitFirst d rest with
      | some (b, a) => some (c :: b, a)
      | none => none := by
  simp [splitFirst, h]

theorem splitFirst_eq_some (d s b a : List Char) (h : splitFirst d s = some (b, a)) :
    s = b ++ d ++ a := by
  induction s generalizing b a with
  | nil =>
    simp only [splitFirst] at h
    split at h
    · next hl =>
      obtain ⟨t, ht⟩ := (leadsWith_iff d []).1 hl
      have hd : d = [] := by
        cases d with
        | nil => rfl
        | cons x xs => simp at ht
      injection h with h2
      injection h2 with hb ha
      subst hd; subst hb; subst ha; rfl
    · exact absurd h (by simp)
  | cons c rest ih =>
    by_cases hl : leadsWith d (c :: rest) = true
    · rw [splitFirst_cons_pos d c rest hl] at h
      obtain ⟨t, ht⟩ := (leadsWith_iff d (c :: rest)).1 hl
      injection h with h2
      injection h2 with hb ha
      subst hb
      rw [ht] at ha ⊢
      rw [List.drop_left] at ha
      simp [ha]
    · rw [splitFirst_cons_neg d c rest (by simpa using hl)] at h
      cases hrec : splitFirst d rest with
      | none => rw [hrec] at h; exact absurd h (by simp)
      | some p =>
        obtain ⟨b1, a1⟩ := p
        rw [hrec] at h
        injection h with h2
        cases h2
        simpa using ih b1 a hrec

theorem splitFirst_none (d s : List Char) (h : splitFirst d s = none) :
    ∀ b a, s ≠ b ++ d ++ a := by
  induction s with
  | nil =>
    intro b a hba
    simp only [splitFirst] at h
    split at h
    · exact absurd h (by simp)
    · next hl =>
      have hd : d ≠ [] := by
        intro hd; rw [hd] at hl; simp [leadsWith] at hl
      cases b with
      | nil =>
        cases d with
        | nil => exact hd rfl
        | cons x xs => simp at hba
      | cons b0 bs => simp at hba
  | cons c rest ih =>
    intro b a hba
    by_cases hl : leadsWith d (c :: rest) = true
    · rw [splitFirst_cons_pos d c rest hl] at h
      exact absurd h (by simp)
    · rw [splitFirst_cons_neg d c rest (by simpa using hl)] at h
      cases b with
      | nil =>
        simp only [List.nil_append] at hba
        exact hl ((leadsWith_iff d (c :: rest)).2 ⟨a, hba⟩)
      | cons b0 bs =>
        have hbs : rest = bs ++ d ++ a := by
          have := congrArg List.tail hba
          simpa using this
        cases hrec : splitFirst d rest with
        | none => exact ih hrec bs a hbs
        | some p => rw [hrec] at h; cases p; exact absurd h (by simp)

theorem splitFirst_first (d b a : List Char)
    (hfirst : ∀ i, i < b.length → leadsWith d ((b ++ d ++ a).drop i) = false) :
    splitFirst d (b ++ d ++ a) = some (b, a) := by
  induction b with
  | nil =>
    simp only [List.nil_append]
    cases hd : (d ++ a : List Char) with
    | nil =>
      have hdnil : d = [] := by
        cases d with
        | nil => rfl
        | cons x xs => simp at hd
      have hanil : a = [] := by cases d <;> simp_all
      subst hdnil; subst hanil
      simp [splitFirst, leadsWith]
    | cons c rest =>
      rw [splitFirst_cons_pos d c rest
        ((leadsWith_iff d (c :: rest)).2 ⟨a, hd.symm⟩), ← hd, List.drop_left]
  | cons b0 bs ih =>
    have hstep : (b0 :: bs) ++ d ++ a = b0 :: (bs ++ d ++ a) := by simp
    rw [hstep]
    have h0 : leadsWith d (b0 :: (bs ++ d ++ a)) = false := by
      have := hfirst 0 (by simp)
      rw [hstep] at this
      simpa using this
    rw [splitFirst_cons_neg d b0 (bs ++ d ++ a) h0]
    have hrec : splitFirst d (bs ++ d ++ a) = some (bs, a) := by
      apply ih
      intro i hi
      have := hfirst (i + 1) (by simpa using Nat.succ_lt_succ hi)
      rw [hstep] at this
      simpa using this
    rw [hrec]

/-- C1.  Response parsing (both Refining and NeedsContext branches of the
chat route): if the delimiter token does not occur in the model response,
the result is no markup together with the whole text trimmed; if it occurs,
the message is the text before the first occurrence, trimmed, and the markup
is the text after the first occurrence with surrounding code fencing
stripped and trimmed. -/
theorem claim_C1_response_parsing (s : List Char) :
    ((∀ b a, s ≠ b ++ htmlMarker ++ a) → parseModelResponse s = (none, trim s)) ∧
    (∀ b a, s = b ++ htmlMarker ++ a →
      (∀ i, i < b.length → leadsWith htmlMarker (s.drop i) = false) →
      parseModelResponse s =
        (some (trim (stripCloseFence (stripOpenFence ("htm").data 'l' (trim a)))), trim b)) := by
  constructor
  · intro hno
    cases hsf : splitFirst htmlMarker s with
    | none => simp [parseModelResponse, hsf]
    | some p =>
      obtain ⟨b, a⟩ := p
      exact absurd (splitFirst_eq_some htmlMarker s b a hsf) (hno b a)
  · intro b a hs hfirst
    subst hs
    rw [parseModelResponse, splitFirst_first htmlMarker b a hfirst]

/-- C1 witness: a concrete two-part response is parsed into its message and
its fence-stripped markup. -/
theorem claim_C1_response_parsing_witness :
    parseModelResponse (("Here you go.---HTML---```html\n<div>hi</div>\n```").data) =
      (some (("<div>hi</div>").data), ("Here you go.").data) := by
  have h :=
    (claim_C1_response_parsing
        (("Here you go.---HTML---```html\n<div>hi</div>\n```").data)).2
      (("Here you go.").data) (("```html\n<div>hi</div>\n```").data)
      (by decide) (by decide)
  exact h.trans (by decide)

/-- C2.  Mode selection: an empty prior transcript or an empty current
markup always selects NeedsContext; non-empty markup and transcript with an
instruction matching none of the "needs original data" patterns always
selects Refining (which skips the context assembly). -/
theorem claim_C2_mode_selection (viz : List Char) (hist : List ChatMsg) (msg : List Char) :
    ((hist = [] ∨ viz = []) → selectMode viz hist msg = Mode.NeedsContext) ∧
    (viz ≠ [] → hist ≠ [] →
      (∀ p ∈ NEEDS_FULL_CONTEXT_PATTERNS, searchToks p msg = false) →
      selectMode viz hist msg = Mode.Refining) := by
  constructor
  · rintro (rfl | rfl) <;> simp [selectMode]
  · intro hviz hhist hpats
    have hnfc : needsFullContext msg = false := by
      rw [needsFullContext]
      rw [List.any_eq_false]
      intro p hp
      simp [hpats p hp]
    simp [selectMode, hnfc, hviz, hhist, List.isEmpty_iff]

/-- C2 witness: empty state selects NeedsContext; populated state with a
benign instruction selects Refining. -/
theorem claim_C2_mode_selection_witness :
    selectMode [] [] (("blue").data) = Mode.NeedsContext ∧
    selectMode (("<div>x</div>").data) [⟨Role.user, ("hi").data⟩] (("blue").data) =
      Mode.Refining :=
  ⟨(claim_C2_mode_selection [] [] (("blue").data)).1 (Or.inl rfl),
   (claim_C2_mode_selection (("<div>x</div>").data) [⟨Role.user, ("hi").data⟩]
       (("blue").data)).2 (by decide) (by decide) (by decide)⟩

/-- C4.  Cancellation of the in-flight generation call: the turn issues no
persistence call at all, so the persisted markup is byte-identical to its
pre-call value; the in-memory transcript (replaced wholesale on the next
successful save) gains the user entry and exactly one cancellation-notice
entry; no markup update, partial or otherwise, is applied. -/
theorem claim_C4_cancellation (p : StoredState) (messages : List ChatMsg)
    (viz userMsg : List Char) (h : (trim userMsg).isEmpty = false) :
    applyWrites p (sendMessageWithContent messages viz userMsg FetchOutcome.abortError).writes
        = p ∧
    (sendMessageWithContent messages viz userMsg FetchOutcome.abortError).currentViz = viz ∧
    (sendMessageWithContent messages viz userMsg FetchOutcome.abortError).messages =
      messages ++ [⟨Role.user, userMsg⟩, ⟨Role.assistant, cancelNotice⟩] := by
  simp [sendMessageWithContent, h, applyWrites]

/-- C4 witness: a concrete cancelled turn. -/
theorem claim_C4_cancellation_witness :
    applyWrites ⟨("OLDVIZ").data, []⟩
        (sendMessageWithContent [] (("OLDVIZ").data) (("stop").data)
          FetchOutcome.abortError).writes = ⟨("OLDVIZ").data, []⟩ ∧
    (sendMessageWithContent [] (("OLDVIZ").data) (("stop").data)
        FetchOutcome.abortError).currentViz = ("OLDVIZ").data ∧
    (sendMessageWithContent [] (("OLDVIZ").data) (("stop").data)
        FetchOutcome.abortError).messages =
      [⟨Role.user, ("stop").data⟩, ⟨Role.assistant, cancelNotice⟩] := by
  have h := claim_C4_cancellation ⟨("OLDVIZ").data, []⟩ [] (("OLDVIZ").data)
    (("stop").data) (by decide)
  exact ⟨h.1, h.2.1, h.2.2.trans (by decide)⟩

/-- C7 counterexample: the orchestrator can return a non-null but empty
markup (response text ending right at the delimiter), and the client then
persists the pre-turn markup, not the returned markup, so a state-mutating
result (markup non-null) is not always persisted as the new markup. -/
theorem claim_C7_counterexample :
    parseModelResponse (("Did it---HTML---").data) = (some [], ("Did it").data) ∧
    (sendMessageWithContent [] (("OLD").data) (("hi").data)
        (FetchOutcome.ok (some []) (("Did it").data))).writes =
      [((("OLD").data),
        [⟨Role.user, ("hi").data⟩, ⟨Role.assistant, ("Did it").data⟩])] ∧
    (("OLD").data : List Char) ≠ [] := by
  refine ⟨by decide, by decide, by decide⟩

/-- C7 (amended).  On a question-only turn (result markup null) the client
issues exactly one persistence call writing the pre-turn markup back
together with the transcript extended by the user and assistant entries; on
a state-mutating turn with a non-null and non-empty markup it issues exactly
one persistence call carrying the new markup together with the extended
transcript.  (A non-null but empty markup result is treated like a
question-only turn, which is what the counterexample forces.) -/
theorem claim_C7_amended_persistence (messages : List ChatMsg)
    (viz userMsg msg : List Char) (vizOpt : Option (List Char))
    (h : (trim userMsg).isEmpty = false) :
    (vizOpt = none →
      (sendMessageWithContent messages viz userMsg (FetchOutcome.ok vizOpt msg)).writes =
        [(viz, messages ++ [⟨Role.user, userMsg⟩,
          ⟨Role.assistant, if msg.isEmpty then defaultAssistantNotice else msg⟩])]) ∧
    (∀ v, vizOpt = some v → v ≠ [] →
      (sendMessageWithContent messages viz userMsg (FetchOutcome.ok vizOpt msg)).writes =
        [(v, messages ++ [⟨Role.user, userMsg⟩,
          ⟨Role.assistant, if msg.isEmpty then defaultAssistantNotice else msg⟩])]) := by
  constructor
  · rintro rfl
    simp [sendMessageWithContent, h]
  · rintro v rfl hv
    simp [sendMessageWithContent, h, List.isEmpty_iff, hv]

/-- C7 witness: one concrete question-only turn and one concrete
state-mutating turn. -/
theorem claim_C7_amended_persistence_witness :
    (sendMessageWithContent [] (("OLD").data) (("how many").data)
        (FetchOutcome.ok none (("Ten.").data))).writes =
      [((("OLD").data),
        [⟨Role.user, ("how many").data⟩, ⟨Role.assistant, ("Ten.").data⟩])] ∧
    (sendMessageWithContent [] (("OLD").data) (("make it blue").data)
        (FetchOutcome.ok (some (("NEW").data)) (("Done.").data))).writes =
      [((("NEW").data),
        [⟨Role.user, ("make it blue").data⟩, ⟨Role.assistant, ("Done.").data⟩])] := by
  have h1 := (claim_C7_amended_persistence [] (("OLD").data) (("how many").data)
    (("Ten.").data) none (by decide)).1 rfl
  have h2 := (claim_C7_amended_persistence [] (("OLD").data) (("make it blue").data)
    (("Done.").data) (some (("NEW").data)) (by decide)).2 (("NEW").data) rfl (by decide)
  exact ⟨h1.trans (by decide), h2.trans (by decide)⟩

/-- C5.  Classification response parsing never raises (it is a total
function whose JSON-parse failure branch is caught): whenever no well-formed
object literal can be parsed out of the text — in particular whenever the
first-to-last-brace segment is absent or fails to parse, which the
hypothesis states — the result is category "unknown", the raw model text as
the extracted text, and no structured payload. -/
theorem claim_C5_classification_parse_degrades (raw : List Char)
    (h : ∀ m, extractBraces raw = some m → jsonParse m = none) :
    parseExtractionResponse (ModelContent.text raw) =
      ⟨Json.str raw, none, Json.str ("unknown").data⟩ := by
  cases hb : extractBraces raw with
  | none => simp [parseExtractionResponse, hb]
  | some mt => simp [parseExtractionResponse, hb, h mt hb]

/-- C5 witness: a concrete reply whose brace segment is not JSON degrades
to the raw text with category "unknown". -/
theorem claim_C5_classification_parse_degrades_witness :
    parseExtractionResponse (ModelContent.text (("no json here \x7bbad\x7d").data)) =
      ⟨Json.str (("no json here \x7bbad\x7d").data), none, Json.str (("unknown").data)⟩ :=
  claim_C5_classification_parse_degrades (("no json here \x7bbad\x7d").data)
    (fun m hm => by
      rw [show extractBraces (("no json here \x7bbad\x7d").data) =
        some (("\x7bbad\x7d").data) from rfl] at hm
      injection hm with h2
      subst h2
      rfl)

/-- C6 (code bug): the classifier does not validate the category against
the closed set.  A model reply carrying fileType "banana" is passed through
verbatim by `parsed.fileType || 'unknown'`, so the returned category is not
a member of the closed set, contradicting the declared result type of the
classifier. -/
theorem claim_C6_category_passthrough :
    ((parseExtractionResponse (ModelContent.text
        (("\x7b\"fileType\": \"banana\", \"extractedText\": \"a summary\"\x7d").data))).fileType).asString
      = some (("banana").data) ∧
    (("banana").data : List Char) ∉ allowedCategories ∧
    ((parseExtractionResponse (ModelContent.text
        (("\x7b\"fileType\": \"banana\", \"extractedText\": \"a summary\"\x7d").data))).text).asString
      = some (("a summary").data) := by
  refine ⟨by decide, by decide, by decide⟩

/-- C3.  Failure degradation of the export feature (route plus the viewer
component handlers, which turn every non-OK response into the degraded
value): whenever the structural pass finds nothing and the model call
fails (throws, or returns non-text content) or its identify output is
malformed (unparseable), the identify request ends with an empty candidate
list and the extract request with no payload; neither path raises an error
dialog — those values are the entire surfaced outcome. -/
theorem claim_C3_failure_degrades (root : Node) (m : ModelOutcome)
    (tid tname : List Char)
    (hdirect : tryDirectExtraction root = none) :
    ((m = ModelOutcome.threw ∨ m = ModelOutcome.nonText ∨
      (∃ t, m = ModelOutcome.ok t ∧ identifyParse t = none)) →
      uiIdentifyTables (identifyRoute root m) = Json.arr []) ∧
    ((m = ModelOutcome.threw ∨ m = ModelOutcome.nonText) →
      uiExtractCsv (extractRoute root tid tname m) = none) := by
  constructor
  · rintro (rfl | rfl | ⟨t, rfl, hml⟩)
    · simp [identifyRoute, hdirect, uiIdentifyTables]
    · simp [identifyRoute, hdirect, uiIdentifyTables]
    · simp [identifyRoute, hdirect, uiIdentifyTables, hml]
  · rintro (rfl | rfl) <;>
    · unfold extractRoute
      rw [hdirect]
      split <;> rfl

/-- C3 witness: a tableless markup with a non-text model response degrades
to an empty list on identify and to no payload on extract. -/
theorem claim_C3_failure_degrades_witness :
    uiIdentifyTables (identifyRoute emptyDocEx ModelOutcome.nonText) = Json.arr [] ∧
    uiExtractCsv (extractRoute emptyDocEx (("t1").data) (("T 1").data)
      ModelOutcome.nonText) = none :=
  ⟨(claim_C3_failure_degrades emptyDocEx ModelOutcome.nonText (("t1").data)
      (("T 1").data) (by decide)).1 (Or.inr (Or.inl rfl)),
   (claim_C3_failure_degrades emptyDocEx ModelOutcome.nonText (("t1").data)
      (("T 1").data) (by decide)).2 (Or.inr rfl)⟩

/-- C9 counterexample: on a markup where the structural pass finds nothing,
identify echoes the model's table list, so two runs of identify on the
unchanged markup can return different candidate ids (the external model is
not deterministic across runs). -/
theorem claim_C9_counterexample :
    candidateIds (uiIdentifyTables (identifyRoute emptyDocEx (ModelOutcome.ok
        (("[\x7b\"id\": \"a\", \"name\": \"A\", \"rowCount\": 1\x7d]").data)))) =
      [some (("a").data)] ∧
    candidateIds (uiIdentifyTables (identifyRoute emptyDocEx (ModelOutcome.ok
        (("[\x7b\"id\": \"b\", \"name\": \"B\", \"rowCount\": 1\x7d]").data)))) =
      [some (("b").data)] ∧
    ([some (("a").data)] : List (Option (List Char))) ≠ [some (("b").data)] := by
  refine ⟨rfl, rfl, by decide⟩

/-- C9 (amended).  Identify is deterministic whenever the structural pass
yields at least one candidate: the result is then independent of the
generative-model call, so two runs on the unchanged markup return identical
candidate lists (ids and row counts included).  When the structural pass is
empty the result echoes the model output and two runs agree only when the
model replies identically, which the counterexample shows is not forced. -/
theorem claim_C9_amended_determinism (root : Node) (m1 m2 : ModelOutcome)
    (h : tryDirectExtraction root ≠ none) :
    identifyRoute root m1 = identifyRoute root m2 := by
  cases he : tryDirectExtraction root with
  | none => exact absurd he h
  | some ts => simp [identifyRoute, he]

/-- C9 witness: on a markup with a literal table, identify gives the same
result for two different model-call outcomes. -/
theorem claim_C9_amended_determinism_witness :
    identifyRoute tableDocEx ModelOutcome.threw =
      identifyRoute tableDocEx ModelOutcome.nonText :=
  claim_C9_amended_determinism tableDocEx ModelOutcome.threw ModelOutcome.nonText
    (by decide)

/-- C10 counterexample, two failure modes of the claim.  Item branch: its
currency pattern requires a dollar sign, so an item cell holding a
comma-thousands two-decimal number without one is emitted unchanged (only
quoted, because of its comma) — no dollar prefix is prepended anywhere in
the emitted payload.  Table branch: only the first currency-shaped
occurrence is rewritten, so when a plain number precedes the comma number
in the cell text, the dollar sign lands on the plain number and the comma
number keeps its comma and gets no prefix. -/
theorem claim_C10_counterexample :
    (tryDirectExtraction itemDocEx =
      some [⟨("line_items").data, ("Line Items").data,
        ("Item Name,Final Price\nWidget,\"1,250.00\"").data⟩] ∧
    ('$') ∉ ("Item Name,Final Price\nWidget,\"1,250.00\"").data) ∧
    replaceMoneyTable (("12.34 and 1,250.00").data) = ("$12.34 and 1,250.00").data := by
  refine ⟨⟨rfl, by decide⟩, by decide⟩

theorem takeWhile_append_stop (p : Char → Bool) (xs : List Char) (y : Char)
    (ys : List Char) (hxs : ∀ x ∈ xs, p x = true) (hy : p y = false) :
    (xs ++ y :: ys).takeWhile p = xs := by
  induction xs with
  | nil => simp [List.takeWhile_cons, hy]
  | cons a as ih =>
    have ha : p a = true := hxs a (by simp)
    simp only [List.cons_append, List.takeWhile_cons, ha, if_true]
    rw [ih (fun x hx => hxs x (by simp [hx]))]

theorem dropWhile_append_stop (p : Char → Bool) (xs : List Char) (y : Char)
    (ys : List Char) (hxs : ∀ x ∈ xs, p x = true) (hy : p y = false) :
    (xs ++ y :: ys).dropWhile p = y :: ys := by
  induction xs with
  | nil => simp [List.dropWhile_cons, hy]
  | cons a as ih =>
    have ha : p a = true := hxs a (by simp)
    simp only [List.cons_append, List.dropWhile_cons, ha, if_true]
    exact ih (fun x hx => hxs x (by simp [hx]))

theorem numTailMatch_prefix (run : List Char) (d1 d2 : Char) (post : List Char)
    (hrun : run ≠ []) (hall : ∀ c ∈ run, isDigitOrComma c = true)
    (hd1 : d1.isDigit = true) (hd2 : d2.isDigit = true) :
    numTailMatch (run ++ '.' :: d1 :: d2 :: post) = some (run, d1, d2, post) := by
  unfold numTailMatch
  rw [takeWhile_append_stop isDigitOrComma run '.' (d1 :: d2 :: post) hall (by decide),
      dropWhile_append_stop isDigitOrComma run '.' (d1 :: d2 :: post) hall (by decide)]
  cases run with
  | nil => exact absurd rfl hrun
  | cons r0 rs => simp [hd1, hd2]

theorem moneyAtTable_match (run : List Char) (d1 d2 : Char) (post : List Char)
    (hrun : run ≠ []) (hall : ∀ c ∈ run, isDigitOrComma c = true)
    (hd1 : d1.isDigit = true) (hd2 : d2.isDigit = true) :
    moneyAtTable (run ++ '.' :: d1 :: d2 :: post) = some (moneyRepl run d1 d2, post) := by
  cases run with
  | nil => exact absurd rfl hrun
  | cons r0 rs =>
    have h0 : isDigitOrComma r0 = true := hall r0 (by simp)
    have hr0 : r0 ≠ '$' := by
      intro he; rw [he] at h0; exact absurd h0 (by decide)
    have hn := numTailMatch_prefix (r0 :: rs) d1 d2 post hrun hall hd1 hd2
    simp only [List.cons_append] at hn ⊢
    simp only [moneyAtTable]
    rw [if_neg hr0, hn]

theorem moneyAtTable_none_of_stop (c : Char) (t : List Char)
    (hc : isDigitOrComma c = false) (hcd : c ≠ '$') :
    moneyAtTable (c :: t) = none := by
  simp only [moneyAtTable]
  rw [if_neg hcd]
  unfold numTailMatch
  simp [List.takeWhile_cons, hc]

theorem moneyAtDollar_none (c : Char) (t : List Char) (hc : c ≠ '$') :
    moneyAtDollar (c :: t) = none := by
  simp only [moneyAtDollar]
  rw [if_neg hc]

theorem moneyAtNegDollar_none (c : Char) (t : List Char) (h : ('$') ∉ c :: t) :
    moneyAtNegDollar (c :: t) = none := by
  cases t with
  | nil => rfl
  | cons c2 t2 =>
    simp only [moneyAtNegDollar]
    by_cases hc : c = '-'
    · rw [if_pos hc, if_neg (show c2 ≠ '$' by intro he; exact h (by simp [he]))]
    · rw [if_neg hc]

theorem replaceMoneyDollar_id (s : List Char) (hs : ('$') ∉ s) :
    replaceMoneyDollar s = s := by
  induction s with
  | nil => rfl
  | cons c rest ih =>
    unfold replaceMoneyDollar
    rw [moneyAtDollar_none c rest (fun he => hs (by simp [he]))]
    rw [ih (fun h => hs (by simp [h]))]

theorem replaceMoneyNeg_id (s : List Char) (hs : ('$') ∉ s) :
    replaceMoneyNeg s = s := by
  induction s with
  | nil => rfl
  | cons c rest ih =>
    unfold replaceMoneyNeg
    rw [moneyAtNegDollar_none c rest hs]
    rw [ih (fun h => hs (by simp [h]))]

/-- C10 (amended).  In the table-cell normalization, for every cell whose
text contains a number with comma thousands separators and a two-digit
decimal part and whose text before that number contains no digit, no comma
and no dollar sign (so that this number is the pattern's first match — the
condition the second counterexample forces, since otherwise the rewrite
lands on an earlier plain number instead): the emitted text carries a
freshly prepended dollar sign on that number with the commas of its run
removed, and only that first occurrence is rewritten — the text after it,
further comma numbers included, is kept verbatim.  The item-cell
normalization, by contrast, requires a literal dollar sign: a cell
containing none at all is left completely unchanged. -/
theorem claim_C10_amended_currency (pre run post s : List Char) (d1 d2 : Char)
    (hrun : run ≠ []) (hall : ∀ c ∈ run, isDigitOrComma c = true)
    (hcomma : ',' ∈ run) (hd1 : d1.isDigit = true) (hd2 : d2.isDigit = true)
    (hpre : ∀ c ∈ pre, isDigitOrComma c = false ∧ c ≠ '$')
    (hs : ('$') ∉ s) :
    replaceMoneyTable (pre ++ run ++ '.' :: d1 :: d2 :: post) =
      pre ++ '$' :: (run.filter (fun c => c ≠ ',')) ++ '.' :: d1 :: d2 :: post ∧
    normalizeItemCell s = s := by
  constructor
  · induction pre with
    | nil =>
      simp only [List.nil_append]
      cases run with
      | nil => exact absurd rfl hrun
      | cons r0 rs =>
        have hm := moneyAtTable_match (r0 :: rs) d1 d2 post hrun hall hd1 hd2
        simp only [List.cons_append] at hm ⊢
        unfold replaceMoneyTable
        rw [hm]
        simp [moneyRepl]
    | cons p0 ps ih =>
      have hp0 := hpre p0 (by simp)
      simp only [List.cons_append, List.append_assoc] at ih ⊢
      unfold replaceMoneyTable
      rw [moneyAtTable_none_of_stop p0 _ hp0.1 hp0.2]
      rw [ih (fun c hc => hpre c (by simp [hc]))]
  · unfold normalizeItemCell
    rw [replaceMoneyDollar_id s hs, replaceMoneyNeg_id s hs]

theorem natDigitsF_acc (f : Nat) : ∀ (n : Nat) (acc : List Char),
    natDigitsF f n acc = natDigitsF f n [] ++ acc := by
  induction f with
  | zero => intro n acc; rfl
  | succ f ih =>
    intro n acc
    by_cases hn : n = 0
    · simp [natDigitsF, hn]
    · simp only [natDigitsF, hn, if_false]
      rw [ih (n / 10) (digitChar (n % 10) :: acc), ih (n / 10) [digitChar (n % 10)]]
      simp

theorem natDigitsF_fuel (n : Nat) : ∀ f, n < f → natDigitsF f n [] = natDigits n := by
  induction n using Nat.strong_induction_on with
  | _ n ih =>
    intro f hf
    cases f with
    | zero => omega
    | succ f2 =>
      by_cases hn : n = 0
      · subst hn; rfl
      · unfold natDigits
        simp only [natDigitsF, hn, if_false]
        rw [natDigitsF_acc f2, natDigitsF_acc n]
        have hlt : n / 10 < n := Nat.div_lt_self (Nat.pos_of_ne_zero hn) (by omega)
        rw [ih (n / 10) hlt f2 (by omega), ih (n / 10) hlt n (by omega)]

theorem natDigits_decomp (n : Nat) (hn : n ≠ 0) :
    natDigits n = natDigits (n / 10) ++ [digitChar (n % 10)] := by
  have h1 : natDigits n = natDigitsF n (n / 10) [digitChar (n % 10)] := by
    unfold natDigits
    simp only [natDigitsF, hn, if_false]
  rw [h1, natDigitsF_acc]
  congr 1
  exact natDigitsF_fuel (n / 10) n (Nat.div_lt_self (Nat.pos_of_ne_zero hn) (by omega))

theorem natDigits_ne_nil (n : Nat) (hn : n ≠ 0) : natDigits n ≠ [] := by
  rw [natDigits_decomp n hn]; simp

theorem digitChar_inj_lt : ∀ a : Nat, a < 10 → ∀ b : Nat, b < 10 →
    digitChar a = digitChar b → a = b := by
  decide

theorem append_singleton_inj (a b : List Char) (x y : Char)
    (h : a ++ [x] = b ++ [y]) : a = b ∧ x = y := by
  have h2 := congrArg List.reverse h
  simp only [List.reverse_append, List.reverse_cons, List.reverse_nil,
    List.nil_append, List.cons_append] at h2
  injection h2 with hx hr
  refine ⟨?_, hx⟩
  rw [← List.reverse_reverse a, hr, List.reverse_reverse]

theorem natDigits_inj : ∀ m n : Nat, natDigits m = natDigits n → m = n := by
  intro m
  induction m using Nat.strong_induction_on with
  | _ m ih =>
    intro n h
    by_cases hm : m = 0
    · subst hm
      by_cases hn : n = 0
      · omega
      · exact absurd h.symm (by simpa using natDigits_ne_nil n hn)
    · by_cases hn : n = 0
      · subst hn
        exact absurd h (by simpa using natDigits_ne_nil m hm)
      · rw [natDigits_decomp m hm, natDigits_decomp n hn] at h
        obtain ⟨h1, h2⟩ := append_singleton_inj _ _ _ _ h
        have hdiv : m / 10 = n / 10 :=
          ih (m / 10) (Nat.div_lt_self (by omega) (by omega)) (n / 10) h1
        have hmod : m % 10 = n % 10 :=
          digitChar_inj_lt _ (Nat.mod_lt m (by omega)) _ (Nat.mod_lt n (by omega)) h2
        have hm10 := Nat.div_add_mod m 10
        have hn10 := Nat.div_add_mod n 10
        omega

theorem natStr_inj (m n : Nat) (h : natStr m = natStr n) : m = n := by
  unfold natStr at h
  by_cases hm : m = 0 <;> by_cases hn : n = 0
  · omega
  · rw [if_pos hm, if_neg hn, natDigits_decomp n hn] at h
    obtain ⟨h1, h2⟩ := append_singleton_inj [] (natDigits (n / 10)) '0'
      (digitChar (n % 10)) (by simpa using h)
    have hz : n / 10 = 0 := by
      by_contra hc
      exact natDigits_ne_nil (n / 10) hc h1.symm
    have hz2 : n % 10 = 0 :=
      (digitChar_inj_lt 0 (by omega) (n % 10) (Nat.mod_lt n (by omega)) h2).symm
    omega
  · rw [if_neg hm, if_pos hn, natDigits_decomp m hm] at h
    obtain ⟨h1, h2⟩ := append_singleton_inj (natDigits (m / 10)) [] (digitChar (m % 10))
      '0' (by simpa using h)
    have hz : m / 10 = 0 := by
      by_contra hc
      exact natDigits_ne_nil (m / 10) hc h1
    have hz2 : m % 10 = 0 :=
      digitChar_inj_lt (m % 10) (Nat.mod_lt m (by omega)) 0 (by omega) h2
    omega
  · rw [if_neg hm, if_neg hn] at h
    exact natDigits_inj m n h

theorem tableIdStr_inj (i j : Nat) (h : tableIdStr i = tableIdStr j) : i = j := by
  unfold tableIdStr at h
  have h2 := List.append_cancel_left h
  have h3 := natStr_inj (i + 1) (j + 1) h2
  omega

theorem tableNameStr_inj (i j : Nat) (h : tableNameStr i = tableNameStr j) : i = j := by
  unfold tableNameStr at h
  have h2 := List.append_cancel_left h
  have h3 := natStr_inj (i + 1) (j + 1) h2
  omega

/-- C10 witness: a concrete table cell gains the dollar prefix and loses
the comma; the same number in an item cell stays unchanged. -/
theorem claim_C10_amended_currency_witness :
    replaceMoneyTable (("total 1,250.00 left").data) = ("total $1250.00 left").data ∧
    normalizeItemCell (("1,250.00").data) = ("1,250.00").data := by
  have h := claim_C10_amended_currency (("total ").data) (("1,250").data)
    ((" left").data) (("1,250.00").data) '0' '0' (by decide) (by decide) (by decide)
    (by decide) (by decide) (by decide) (by decide)
  exact ⟨h.1.trans (by decide), h.2⟩

theorem splitOnCh_ne_nil (d : Char) (s : List Char) : splitOnCh d s ≠ [] := by
  cases s with
  | nil => simp [splitOnCh]
  | cons c rest =>
    simp only [splitOnCh]
    split
    · simp
    · split <;> simp

theorem splitOnCh_no (d : Char) (s : List Char) (h : d ∉ s) : splitOnCh d s = [s] := by
  induction s with
  | nil => rfl
  | cons c rest ih =>
    have hc : c ≠ d := fun he => h (by simp [he])
    simp only [splitOnCh]
    rw [ih (fun hm => h (by simp [hm]))]
    simp [hc]

theorem splitOnCh_app (d : Char) (x b : List Char) (h : d ∉ x) :
    splitOnCh d (x ++ d :: b) = x :: splitOnCh d b := by
  induction x with
  | nil =>
    simp only [List.nil_append, splitOnCh]
    cases hs : splitOnCh d b with
    | nil => exact absurd hs (splitOnCh_ne_nil d b)
    | cons p ps => simp
  | cons c rest ih =>
    have hc : c ≠ d := fun he => h (by simp [he])
    simp only [List.cons_append, splitOnCh, List.append_eq]
    rw [ih (fun hm => h (by simp [hm]))]
    simp [hc]

theorem splitOnCh_join (d : Char) (parts : List (List Char)) (hne : parts ≠ [])
    (h : ∀ p ∈ parts, d ∉ p) :
    splitOnCh d (joinSep d parts) = parts := by
  induction parts with
  | nil => exact absurd rfl hne
  | cons x rest ih =>
    cases rest with
    | nil => exact splitOnCh_no d x (h x (by simp))
    | cons y rest2 =>
      show splitOnCh d (x ++ d :: joinSep d (y :: rest2)) = _
      rw [splitOnCh_app d x _ (h x (by simp))]
      rw [ih (by simp) (fun p hp => h p (by simp [hp]))]

theorem scanQ_append (a : List Char) : ∀ (b : List Char) (q : Bool),
    scanQ (a ++ b) q =
      ((scanQ a q).1 + (scanQ b (scanQ a q).2).1, (scanQ b (scanQ a q).2).2) := by
  induction a with
  | nil => intro b q; simp [scanQ]
  | cons c rest ih =>
    intro b q
    by_cases hc : c = '"'
    · simp [scanQ, hc, ih]
    · by_cases hc2 : c = ','
      · cases q with
        | true => simp [scanQ, hc, hc2, ih]
        | false =>
          subst hc2
          have hl : scanQ (',' :: (rest ++ b)) false =
              ((scanQ (rest ++ b) false).1 + 1, (scanQ (rest ++ b) false).2) := by
            simp [scanQ]
          have hr : scanQ (',' :: rest) false =
              ((scanQ rest false).1 + 1, (scanQ rest false).2) := by
            simp [scanQ]
          rw [List.cons_append, hl, hr, ih b false]
          simp only [Prod.ext_iff]
          exact ⟨by omega, by simp⟩
      · simp [scanQ, hc, hc2, ih]

theorem scanQ_no_specials (s : List Char) : ∀ q : Bool,
    (∀ c ∈ s, c ≠ '"' ∧ c ≠ ',') → scanQ s q = (0, q) := by
  induction s with
  | nil => intro q _; rfl
  | cons c rest ih =>
    intro q h
    have hc := h c (by simp)
    simp only [scanQ, hc.1, hc.2, if_false]
    exact ih q (fun x hx => h x (by simp [hx]))

theorem scanQ_escQuotes (s : List Char) : scanQ (escQuotes s) true = (0, true) := by
  induction s with
  | nil => rfl
  | cons c rest ih =>
    simp only [escQuotes]
    by_cases hc : c = '"'
    · simp [hc, scanQ, ih]
    · by_cases hc2 : c = ','
      · simp [hc, hc2, scanQ, ih]
      · simp [hc, hc2, scanQ, ih]

theorem scanQ_quoteCsv (s : List Char) : scanQ (quoteCsv s) false = (0, false) := by
  unfold quoteCsv
  by_cases hq : (s.contains ',' || s.contains '"') = true
  · rw [if_pos hq]
    have h1 : scanQ ('"' :: (escQuotes s ++ ['"'])) false =
        scanQ (escQuotes s ++ ['"']) true := by simp [scanQ]
    rw [List.cons_append, h1, scanQ_append, scanQ_escQuotes]
    rfl
  · rw [if_neg hq]
    apply scanQ_no_specials
    intro c hc
    simp only [Bool.or_eq_true, not_or] at hq
    constructor
    · intro he
      subst he
      apply hq.2
      simp only [List.contains, List.elem_iff]
      exact hc
    · intro he
      subst he
      apply hq.1
      simp only [List.contains, List.elem_iff]
      exact hc

theorem scanQ_joinSep (cells : List (List Char)) (hne : cells ≠ [])
    (h : ∀ e ∈ cells, scanQ e false = (0, false)) :
    scanQ (joinSep ',' cells) false = (cells.length - 1, false) := by
  induction cells with
  | nil => exact absurd rfl hne
  | cons e rest ih =>
    cases rest with
    | nil => simpa using h e (by simp)
    | cons y rest2 =>
      show scanQ (e ++ ',' :: joinSep ',' (y :: rest2)) false = _
      rw [scanQ_append, h e (by simp)]
      have h2 : scanQ (',' :: joinSep ',' (y :: rest2)) false =
          ((scanQ (joinSep ',' (y :: rest2)) false).1 + 1,
           (scanQ (joinSep ',' (y :: rest2)) false).2) := by
        simp [scanQ]
      rw [h2, ih (by simp) (fun p hp => h p (by simp [hp]))]
      simp only [Prod.ext_iff, List.length_cons]
      exact ⟨by omega, by simp⟩

theorem countFields_joinSep (cells : List (List Char)) (hne : cells ≠ [])
    (h : ∀ e ∈ cells, scanQ e false = (0, false)) :
    countFields (joinSep ',' cells) = cells.length := by
  unfold countFields
  rw [scanQ_joinSep cells hne h]
  have h2 : cells.length ≠ 0 := by simpa using hne
  show cells.length - 1 + 1 = cells.length
  omega

theorem mem_escQuotes (s : List Char) (x : Char) (hx : x ∈ escQuotes s) :
    x ∈ s ∨ x = '"' := by
  induction s with
  | nil => simp [escQuotes] at hx
  | cons c rest ih =>
    simp only [escQuotes] at hx
    by_cases hc : c = '"'
    · rw [if_pos hc] at hx
      rcases List.mem_cons.mp hx with rfl | hx2
      · exact Or.inr rfl
      · rcases List.mem_cons.mp hx2 with rfl | hx3
        · exact Or.inr rfl
        · rcases ih hx3 with h | h
          · exact Or.inl (by simp [h])
          · exact Or.inr h
    · rw [if_neg hc] at hx
      rcases List.mem_cons.mp hx with rfl | hx2
      · exact Or.inl (by simp)
      · rcases ih hx2 with h | h
        · exact Or.inl (by simp [h])
        · exact Or.inr h

theorem nl_not_mem_quoteCsv (s : List Char) (h : ('\n') ∉ s) : ('\n') ∉ quoteCsv s := by
  unfold quoteCsv
  split
  · intro hm
    rcases List.mem_cons.mp hm with he | hm2
    · exact absurd he (by decide)
    · rcases List.mem_append.mp hm2 with hm3 | hm3
      · rcases mem_escQuotes s _ hm3 with h2 | h2
        · exact h h2
        · exact absurd h2 (by decide)
      · simp at hm3
  · exact h

theorem numTailMatch_parts (s run : List Char) (d1 d2 : Char) (r : List Char)
    (h : numTailMatch s = some (run, d1, d2, r)) :
    run = s.takeWhile isDigitOrComma ∧ d1.isDigit = true ∧ d2.isDigit = true ∧
    s.dropWhile isDigitOrComma = '.' :: d1 :: d2 :: r := by
  simp only [numTailMatch] at h
  split at h
  · exact absurd h (by simp)
  · split at h
    · next a b r2 heq =>
      split at h
      · next hd =>
        injection h with h2
        cases h2
        simp only [Bool.and_eq_true] at hd
        exact ⟨rfl, hd.1, hd.2, heq⟩
      · exact absurd h (by simp)
    · exact absurd h (by simp)

theorem numTail_mem (s run : List Char) (d1 d2 : Char) (r : List Char)
    (h : numTailMatch s = some (run, d1, d2, r)) :
    (∀ x ∈ run, x ∈ s) ∧ d1 ∈ s ∧ d2 ∈ s ∧ (∀ x ∈ r, x ∈ s) := by
  obtain ⟨hrun, _, _, hdrop⟩ := numTailMatch_parts s run d1 d2 r h
  have hsub1 : ∀ x ∈ run, x ∈ s := by
    intro x hx
    rw [hrun] at hx
    exact (List.takeWhile_sublist _).subset hx
  have hsub2 : ∀ x ∈ ('.' :: d1 :: d2 :: r), x ∈ s := by
    intro x hx
    rw [← hdrop] at hx
    exact (List.dropWhile_sublist _).subset hx
  exact ⟨hsub1, hsub2 d1 (by simp), hsub2 d2 (by simp),
    fun x hx => hsub2 x (by simp [hx])⟩

theorem moneyRepl_mem (run : List Char) (d1 d2 : Char) (x : Char)
    (hx : x ∈ moneyRepl run d1 d2) :
    x ∈ run ∨ x = d1 ∨ x = d2 ∨ x = '$' ∨ x = '.' := by
  unfold moneyRepl at hx
  rcases List.mem_cons.mp hx with rfl | hx2
  · exact Or.inr (Or.inr (Or.inr (Or.inl rfl)))
  · rcases List.mem_append.mp hx2 with hx3 | hx3
    · exact Or.inl (List.mem_of_mem_filter hx3)
    · rcases List.mem_cons.mp hx3 with rfl | hx4
      · exact Or.inr (Or.inr (Or.inr (Or.inr rfl)))
      · rcases List.mem_cons.mp hx4 with rfl | hx5
        · exact Or.inr (Or.inl rfl)
        · rcases List.mem_cons.mp hx5 with rfl | hx6
          · exact Or.inr (Or.inr (Or.inl rfl))
          · simp at hx6

theorem moneyAtTable_parts (s repl after : List Char)
    (h : moneyAtTable s = some (repl, after)) :
    (∀ x ∈ repl, x ∈ s ∨ x = '$' ∨ x = '.') ∧ (∀ x ∈ after, x ∈ s) := by
  cases s with
  | nil => simp [moneyAtTable] at h
  | cons c t =>
    simp only [moneyAtTable] at h
    by_cases hc : c = '$'
    · rw [if_pos hc] at h
      cases hm : numTailMatch t with
      | none => rw [hm] at h; exact absurd h (by simp)
      | some p =>
        obtain ⟨run, a, b, r2⟩ := p
        rw [hm] at h
        injection h with h2
        cases h2
        obtain ⟨hr1, ha, hb, hr2⟩ := numTail_mem t run a b after hm
        refine ⟨?_, fun x hx => List.mem_cons_of_mem c (hr2 x hx)⟩
        intro x hx
        rcases moneyRepl_mem run a b x hx with h3 | rfl | rfl | rfl | rfl
        · exact Or.inl (List.mem_cons_of_mem c (hr1 x h3))
        · exact Or.inl (List.mem_cons_of_mem c ha)
        · exact Or.inl (List.mem_cons_of_mem c hb)
        · exact Or.inr (Or.inl rfl)
        · exact Or.inr (Or.inr rfl)
    · rw [if_neg hc] at h
      cases hm : numTailMatch (c :: t) with
      | none => rw [hm] at h; exact absurd h (by simp)
      | some p =>
        obtain ⟨run, a, b, r2⟩ := p
        rw [hm] at h
        injection h with h2
        cases h2
        obtain ⟨hr1, ha, hb, hr2⟩ := numTail_mem (c :: t) run a b after hm
        refine ⟨?_, hr2⟩
        intro x hx
        rcases moneyRepl_mem run a b x hx with h3 | rfl | rfl | rfl | rfl
        · exact Or.inl (hr1 x h3)
        · exact Or.inl ha
        · exact Or.inl hb
        · exact Or.inr (Or.inl rfl)
        · exact Or.inr (Or.inr rfl)

theorem replaceMoneyTable_subset (s : List Char) (x : Char)
    (hx : x ∈ replaceMoneyTable s) : x ∈ s ∨ x = '$' ∨ x = '.' := by
  induction s with
  | nil => simp [replaceMoneyTable] at hx
  | cons c rest ih =>
    simp only [replaceMoneyTable] at hx
    cases hm : moneyAtTable (c :: rest) with
    | some p =>
      obtain ⟨repl, after⟩ := p
      rw [hm] at hx
      rcases List.mem_append.mp hx with hx2 | hx2
      · exact (moneyAtTable_parts _ _ _ hm).1 x hx2
      · exact Or.inl ((moneyAtTable_parts _ _ _ hm).2 x hx2)
    | none =>
      rw [hm] at hx
      rcases List.mem_cons.mp hx with rfl | hx2
      · exact Or.inl (by simp)
      · rcases ih hx2 with h | h
        · exact Or.inl (by simp [h])
        · exact Or.inr h

theorem nl_not_mem_encCell (c : List Char) (h : ('\n') ∉ c) :
    ('\n') ∉ quoteCsv (replaceMoneyTable c) := by
  apply nl_not_mem_quoteCsv
  intro hm
  rcases replaceMoneyTable_subset c ('\n') hm with h2 | h2 | h2
  · exact h h2
  · exact absurd h2 (by decide)
  · exact absurd h2 (by decide)

theorem nl_not_mem_joinSep (parts : List (List Char))
    (h : ∀ p ∈ parts, ('\n') ∉ p) : ('\n') ∉ joinSep ',' parts := by
  induction parts with
  | nil => simp [joinSep]
  | cons x rest ih =>
    cases rest with
    | nil => exact h x (by simp)
    | cons y rest2 =>
      show ('\n') ∉ x ++ ',' :: joinSep ',' (y :: rest2)
      intro hm
      rcases List.mem_append.mp hm with hm2 | hm2
      · exact h x (by simp) hm2
      · rcases List.mem_cons.mp hm2 with he | hm3
        · exact absurd he (by decide)
        · exact ih (fun p hp => h p (by simp [hp])) hm3

theorem mkTableCand_fields (j : Nat) (t : Node) (c : DirectTable)
    (h : mkTableCand j t = some c) :
    c = ⟨tableIdStr j, tableNameStr j, tableCsv t⟩ ∧ (tableRowsEnc t).length > 1 := by
  simp only [mkTableCand] at h
  split at h
  · next hgt =>
    injection h with h2
    exact ⟨h2.symm, hgt⟩
  · exact absurd h (by simp)

theorem tableCandsAux_append (as : List Node) : ∀ (idx : Nat) (bs : List Node),
    tableCandsAux idx (as ++ bs) =
      tableCandsAux idx as ++ tableCandsAux (idx + as.length) bs := by
  induction as with
  | nil => intro idx bs; simp [tableCandsAux]
  | cons t ts ih =>
    intro idx bs
    have harith : idx + (ts.length + 1) = (idx + 1) + ts.length := by omega
    simp only [List.cons_append, tableCandsAux, List.length_cons, harith]
    cases hm : mkTableCand idx t with
    | some c => simp [hm, ih (idx + 1) bs]
    | none => simp [hm, ih (idx + 1) bs]

theorem mem_tableCandsAux (ts : List Node) : ∀ (idx : Nat) (c : DirectTable),
    c ∈ tableCandsAux idx ts →
    ∃ j t, idx ≤ j ∧ j < idx + ts.length ∧ mkTableCand j t = some c := by
  induction ts with
  | nil => intro idx c hc; simp [tableCandsAux] at hc
  | cons t2 ts2 ih =>
    intro idx c hc
    simp only [tableCandsAux] at hc
    cases hm : mkTableCand idx t2 with
    | some c2 =>
      simp only [hm] at hc
      rcases List.mem_cons.mp hc with rfl | hc2
      · exact ⟨idx, t2, Nat.le_refl idx, by simp, hm⟩
      · obtain ⟨j, t3, hj1, hj2, hj3⟩ := ih (idx + 1) c hc2
        refine ⟨j, t3, by omega, ?_, hj3⟩
        simp only [List.length_cons] at hj2 ⊢
        omega
    | none =>
      simp only [hm] at hc
      obtain ⟨j, t3, hj1, hj2, hj3⟩ := ih (idx + 1) c hc
      refine ⟨j, t3, by omega, ?_, hj3⟩
      simp only [List.length_cons] at hj2 ⊢
      omega

theorem find?_append_none {α : Type} (p : α → Bool) (as bs : List α)
    (h : ∀ x ∈ as, p x = false) :
    List.find? p (as ++ bs) = List.find? p bs := by
  induction as with
  | nil => simp
  | cons a rest ih =>
    rw [List.cons_append, List.find?_cons_of_neg (rest ++ bs) (by simp [h a (by simp)])]
    exact ih (fun x hx => h x (by simp [hx]))

theorem tableRowsEnc_eq (t : Node) (h : ∀ r ∈ tableRowsRaw t, r ≠ []) :
    tableRowsEnc t =
      (tableRowsRaw t).map (List.map (fun c => quoteCsv (replaceMoneyTable c))) := by
  unfold tableRowsEnc tableRowsRaw
  rw [List.filter_eq_self.mpr]
  · rw [List.map_map]
    refine List.map_congr_left (fun tr _ => ?_)
    rw [Function.comp_apply, List.map_map]
    rfl
  · intro a ha
    obtain ⟨tr, htr, rfl⟩ := List.mem_map.mp ha
    have hraw : (qsaN isCellTag tr).map cellRaw ∈
        (qsaN (matchesTag ("tr").data) t).map (fun tr2 => (qsaN isCellTag tr2).map cellRaw) :=
      List.mem_map_of_mem _ htr
    have hne := h _ hraw
    simp only [ne_eq, List.map_eq_nil_iff] at hne
    simp [List.isEmpty_iff, List.map_eq_nil_iff, hne]

/-- C8 (amended).  For any markup whose parsed tree contains a literal
table (the table at document index `pre.length` among the table elements)
with N+1 rows of exactly W cells each (header plus N data rows, W, N ≥ 1)
and no embedded newline in any cell text — the amendment the counterexample
forces — identify returns a structural candidate for that table whose
rowCount is N, extract of that candidate id returns its cached payload with
no model involvement, and that payload has exactly N+1 newline-separated
lines, each with exactly W comma-separated fields (quoted fields with
embedded separators counting as one field). -/
theorem claim_C8_amended_table_export
    (root : Node) (pre post : List Node) (T : Node) (W N : Nat)
    (m1 m2 : ModelOutcome)
    (htables : qsaN (matchesTag (("table").data)) root = pre ++ T :: post)
    (hW : 0 < W) (hN : 0 < N)
    (hlen : (tableRowsRaw T).length = N + 1)
    (hw : ∀ r ∈ tableRowsRaw T, r.length = W)
    (hnl : ∀ r ∈ tableRowsRaw T, ∀ c ∈ r, ('\n') ∉ c) :
    (∃ cs, identifyRoute root m1 = IdentifyResp.direct cs ∧
      toCandOut ⟨tableIdStr pre.length, tableNameStr pre.length, tableCsv T⟩ ∈ cs ∧
      (toCandOut ⟨tableIdStr pre.length, tableNameStr pre.length, tableCsv T⟩).rowCount
        = N) ∧
    extractRoute root (tableIdStr pre.length) (tableNameStr pre.length) m2 =
      ExtractResp.okCsv (tableCsv T) ∧
    (splitOnCh '\n' (tableCsv T)).length = N + 1 ∧
    (∀ line ∈ splitOnCh '\n' (tableCsv T), countFields line = W) := by
  have hnonempty : ∀ r ∈ tableRowsRaw T, r ≠ [] := by
    intro r hr hcontra
    have hwr := hw r hr
    rw [hcontra] at hwr
    simp at hwr
    omega
  have hEnc := tableRowsEnc_eq T hnonempty
  have hEncLen : (tableRowsEnc T).length = N + 1 := by
    rw [hEnc, List.length_map, hlen]
  have hgt : (tableRowsEnc T).length > 1 := by omega
  have hmk : mkTableCand pre.length T =
      some ⟨tableIdStr pre.length, tableNameStr pre.length, tableCsv T⟩ := by
    simp [mkTableCand, hgt]
  have hrowlen : ∀ r ∈ tableRowsEnc T, r.length = W := by
    intro r hr
    rw [hEnc] at hr
    obtain ⟨raw, hraw, rfl⟩ := List.mem_map.mp hr
    rw [List.length_map]
    exact hw raw hraw
  have hrowNoNl : ∀ r ∈ tableRowsEnc T, ∀ e ∈ r, ('\n') ∉ e := by
    intro r hr e he
    rw [hEnc] at hr
    obtain ⟨raw, hraw, rfl⟩ := List.mem_map.mp hr
    obtain ⟨cell, hcell, rfl⟩ := List.mem_map.mp he
    exact nl_not_mem_encCell cell (hnl raw hraw cell hcell)
  have hlinesNoNl : ∀ line ∈ (tableRowsEnc T).map (joinSep ','), ('\n') ∉ line := by
    intro line hl
    obtain ⟨r, hr, rfl⟩ := List.mem_map.mp hl
    exact nl_not_mem_joinSep r (hrowNoNl r hr)
  have hlinesne : (tableRowsEnc T).map (joinSep ',') ≠ [] := by
    simp only [ne_eq, List.map_eq_nil_iff]
    intro hcontra
    rw [hcontra] at hEncLen
    simp at hEncLen
  have hsplit : splitOnCh '\n' (tableCsv T) = (tableRowsEnc T).map (joinSep ',') := by
    unfold tableCsv
    exact splitOnCh_join '\n' _ hlinesne hlinesNoNl
  have hlineslen : (splitOnCh '\n' (tableCsv T)).length = N + 1 := by
    rw [hsplit, List.length_map, hEncLen]
  have hfields : ∀ line ∈ splitOnCh '\n' (tableCsv T), countFields line = W := by
    rw [hsplit]
    intro line hl
    obtain ⟨r, hr, rfl⟩ := List.mem_map.mp hl
    have hrne : r ≠ [] := by
      intro hco
      have hwr := hrowlen r hr
      rw [hco] at hwr
      simp at hwr
      omega
    have hscan : ∀ e ∈ r, scanQ e false = (0, false) := by
      intro e he
      rw [hEnc] at hr
      obtain ⟨raw, hraw, rfl⟩ := List.mem_map.mp hr
      obtain ⟨cell, hcell, rfl⟩ := List.mem_map.mp he
      exact scanQ_quoteCsv _
    rw [countFields_joinSep r hrne hscan]
    exact hrowlen r hr
  have hsplit2 : tableCandsAux 0 (pre ++ T :: post) =
      tableCandsAux 0 pre ++
        ((⟨tableIdStr pre.length, tableNameStr pre.length, tableCsv T⟩ : DirectTable) ::
          tableCandsAux (pre.length + 1) post) := by
    rw [tableCandsAux_append pre 0 (T :: post)]
    congr 1
    have hz : (0 : Nat) + pre.length = pre.length := by omega
    rw [hz]
    simp only [tableCandsAux, hmk]
  have htry : tryDirectExtraction root =
      some (tableCandsAux 0 pre ++
        ((⟨tableIdStr pre.length, tableNameStr pre.length, tableCsv T⟩ : DirectTable) ::
          tableCandsAux (pre.length + 1) post) ++ lineItemsCands root) := by
    unfold tryDirectExtraction
    rw [htables, hsplit2]
    simp
  have hident : identifyRoute root m1 = IdentifyResp.direct
      ((tableCandsAux 0 pre ++
        ((⟨tableIdStr pre.length, tableNameStr pre.length, tableCsv T⟩ : DirectTable) ::
          tableCandsAux (pre.length + 1) post) ++ lineItemsCands root).map toCandOut) := by
    simp [identifyRoute, htry]
  have hA : ∀ x ∈ tableCandsAux 0 pre,
      (x.id == tableIdStr pre.length || x.name == tableNameStr pre.length) = false := by
    intro x hx
    obtain ⟨j, t2, hj0, hjlt, hjmk⟩ := mem_tableCandsAux pre 0 x hx
    obtain ⟨hxeq, _⟩ := mkTableCand_fields j t2 x hjmk
    subst hxeq
    have hjne : j ≠ pre.length := by omega
    have h1 : tableIdStr j ≠ tableIdStr pre.length :=
      fun he => hjne (tableIdStr_inj _ _ he)
    have h2 : tableNameStr j ≠ tableNameStr pre.length :=
      fun he => hjne (tableNameStr_inj _ _ he)
    simp [h1, h2]
  refine ⟨⟨_, hident, List.mem_map_of_mem toCandOut (by simp), ?_⟩, ?_, hlineslen, hfields⟩
  · simp only [toCandOut]
    rw [hlineslen]
    omega
  · have hid_ne : (tableIdStr pre.length).isEmpty = false := by
      simp [tableIdStr]
    unfold extractRoute
    rw [hid_ne]
    rw [if_neg (by simp)]
    rw [htry]
    simp only [Option.some_bind]
    have hshape : tableCandsAux 0 pre ++
        ((⟨tableIdStr pre.length, tableNameStr pre.length, tableCsv T⟩ : DirectTable) ::
          tableCandsAux (pre.length + 1) post) ++ lineItemsCands root =
        tableCandsAux 0 pre ++
        ((⟨tableIdStr pre.length, tableNameStr pre.length, tableCsv T⟩ : DirectTable) ::
          (tableCandsAux (pre.length + 1) post ++ lineItemsCands root)) := by
      simp
    rw [hshape]
    rw [find?_append_none _ (tableCandsAux 0 pre) _ hA]
    rw [List.find?_cons_of_pos _ (by simp)]

/-- C8 counterexample: a literal one-column table (W = 1) with one data row
(N = 1) whose cell text contains an embedded newline; the payload is line
counted, so identify reports rowCount 2, not N = 1. -/
theorem claim_C8_counterexample :
    (tableRowsRaw nlTableEx).length = 1 + 1 ∧
    (∀ r ∈ tableRowsRaw nlTableEx, r.length = 1) ∧
    identifyRoute nlTableDocEx ModelOutcome.threw =
      IdentifyResp.direct [⟨("table_1").data, ("Table 1").data,
        ("Extracted directly from HTML structure").data, 2, ("X\na\nb").data⟩] ∧
    (2 : Nat) ≠ 1 := by
  refine ⟨by decide, by decide, rfl, by decide⟩

/-- C8 witness: the specification scenario table (two columns, one data
row) round-trips: one candidate with rowCount 1, extract returns the cached
payload, two lines of two fields each. -/
theorem claim_C8_amended_table_export_witness :
    (∃ cs, identifyRoute tableDocEx ModelOutcome.threw = IdentifyResp.direct cs ∧
      toCandOut ⟨tableIdStr 0, tableNameStr 0, tableCsv tableTblEx⟩ ∈ cs ∧
      (toCandOut ⟨tableIdStr 0, tableNameStr 0, tableCsv tableTblEx⟩).rowCount = 1) ∧
    extractRoute tableDocEx (tableIdStr 0) (tableNameStr 0) ModelOutcome.threw =
      ExtractResp.okCsv (("Item,Price\nWidget,$1250.00").data) ∧
    (splitOnCh '\n' (("Item,Price\nWidget,$1250.00").data)).length = 1 + 1 ∧
    (∀ line ∈ splitOnCh '\n' (("Item,Price\nWidget,$1250.00").data),
      countFields line = 2) := by
  have h := claim_C8_amended_table_export tableDocEx [] [] tableTblEx 2 1
    ModelOutcome.threw ModelOutcome.threw rfl (by decide) (by decide) (by decide)
    (by decide) (by decide)
  exact h

end FiatLux
